import Mathlib

/-!
The regclean reconciliation loop, retention filter, image reference parsing and
disk cache.

A shallow embedding of the Go sources `main.go`, `pkg/helpers/*.go` and
`pkg/caching/diskstore.go`.

Go strings are modelled as lists of characters (`Str`).  The separators the
code splits on (`@`, `:`, `/`) are ASCII, so splitting characters and splitting
bytes of a UTF-8 string agree.  A Go run-time panic (index out of range) is
modelled by the result `none`.
-/

namespace Regclean

/-- A Go `string`. -/
abbrev Str := List Char

/-! ## The string library functions the code calls -/

/-- Go `strings.Split(s, sep)` for a one-character separator: the pieces of `s`
between the occurrences of `sep`; always at least one piece. -/
def Split : Str → Char → List Str
  | [], _ => [[]]
  | c :: cs, sep =>
    if c = sep then [] :: Split cs sep
    else
      match Split cs sep with
      | [] => [[c]]
      | piece :: rest => (c :: piece) :: rest

/-- Go `strings.HasPrefix(s, pre)`. -/
def HasPrefix : Str → Str → Bool
  | _, [] => true
  | [], _ :: _ => false
  | c :: cs, p :: ps => c = p && HasPrefix cs ps

/-- Go `strings.TrimPrefix(s, pre)`: `s` without the leading `pre`, or `s`
itself when it does not start with `pre`. -/
def TrimPrefix (s pre : Str) : Str :=
  if HasPrefix s pre then s.drop pre.length else s

/-- Go `strings.Contains(s, sub)`: `sub` occurs in `s` as a contiguous run. -/
def Contains : Str → Str → Bool
  | [], sub => HasPrefix [] sub
  | c :: cs, sub => HasPrefix (c :: cs) sub || Contains cs sub

/-- The function `slices.Contains(list, s)` of `k8s.io/utils/strings/slices`:
some element of the list is equal to `s`. -/
def slicesContains : List Str → Str → Bool
  | [], _ => false
  | x :: xs, s => x = s || slicesContains xs s

/-- The function `slices.Filter(nil, list, keep)` of
`k8s.io/utils/strings/slices`: the elements for which `keep` holds, appended in
order to the empty destination. -/
def slicesFilter (list : List Str) (keep : Str → Bool) : List Str :=
  list.foldl (fun d s => if keep s then d ++ [s] else d) []

/-! ## `main.go`: the reconcile loop of `run` -/

/-- One iteration of the loop at `main.go` lines 117-123, on the pair
`(toDelete, toKeep)`. -/
def reconcileStep (clusterImages : List Str) (acc : List Str × List Str)
    (registryImage : Str) : List Str × List Str :=
  if !slicesContains clusterImages registryImage then
    (acc.1 ++ [registryImage], acc.2)
  else
    (acc.1, acc.2 ++ [registryImage])

/-- The loop at `main.go` lines 115-123: both lists start empty and every
registry image is appended to one of them.  The result is `(toDelete, toKeep)`. -/
def reconcile (clusterImages registryImages : List Str) : List Str × List Str :=
  registryImages.foldl (reconcileStep clusterImages) ([], [])

/-! ## `pkg/helpers/clusterHelper.go` -/

/-- Go `cleanImageNames` (`clusterHelper.go` lines 113-121): every image is
replaced by element 0 of `strings.Split(img, "@")` and appended to the
output.  Indexing element 0 of an empty slice would panic (`none`). -/
def cleanImageNames (images : List Str) : Option (List Str) :=
  images.foldl
    (fun acc img =>
      match acc, Split img '@' with
      | some imgs, first :: _ => some (imgs ++ [first])
      | _, _ => none)
    (some [])

/-! ## `pkg/helpers/registryHelper.go` -/

/-- A manifest digest, as the registry client reports it. -/
abbrev Digest := Str

/-- Go `imageMeta`: `Created` is a `time.Time`, here the instant in nanoseconds
since the epoch; `TotalSize` is a `uint64`. -/
structure imageMeta where
  Created : Int
  TotalSize : Nat
deriving DecidableEq, Repr

/-- Go `regHelper`.  The registry client `hub` and the cache behind
`h.imageMeta` are external: their answers are fields of the helper.
`metaResult img tag` is what `h.imageMeta(img, tag)` returns (`none` for a
non-nil error), `ManifestDigest img tag` what `h.hub.ManifestDigest` returns
(`none` for an error), and `DeleteManifest img digest` is `true` when
`h.hub.DeleteManifest` returns a nil error. -/
structure regHelper where
  RegPrefix : Str
  dryRun : Bool
  metaResult : Str → Str → Option imageMeta
  ManifestDigest : Str → Str → Option Digest
  DeleteManifest : Str → Digest → Bool

/-- Go `regHelper.splitImageTag` (lines 84-87): the registry prefix and a slash
are trimmed, the rest is split on `:` and the elements 0 and 1 are returned.
With fewer than two elements the index expression `i[1]` panics (`none`). -/
def regHelper.splitImageTag (h : regHelper) (image : Str) : Option (Str × Str) :=
  match Split (TrimPrefix image (h.RegPrefix ++ ['/'])) ':' with
  | i0 :: i1 :: _ => some (i0, i1)
  | _ => none

/-- Go `regHelper.GetImageDate` (lines 169-176).  The outer `none` is a panic
of `splitImageTag`; `some none` is the return `(nil, err)`; `some (some t)` is
the return `(&meta.Created, nil)`. -/
def regHelper.GetImageDate (h : regHelper) (image : Str) : Option (Option Int) :=
  match h.splitImageTag image with
  | none => none
  | some (img, tag) =>
    match h.metaResult img tag with
    | none => some none
    | some m => some (some m.Created)

/-- The two errors `DeleteImage` can return. -/
inductive DeleteError where
  | fetchDigest
  | deleteManifest
deriving DecidableEq, Repr

/-- What one call of `DeleteImage` did: the error it returned (`none` for nil)
and the `DeleteManifest` requests it sent to the registry, in order, each with
its repository and digest. -/
structure DeleteOutcome where
  err : Option DeleteError
  deleteCalls : List (Str × Digest)
deriving DecidableEq, Repr

/-- Go `regHelper.DeleteImage` (lines 89-106).  `none` is a panic of
`splitImageTag`. -/
def regHelper.DeleteImage (h : regHelper) (image : Str) : Option DeleteOutcome :=
  match h.splitImageTag image with
  | none => none
  | some (img, tag) =>
    match h.ManifestDigest img tag with
    | none => some { err := some DeleteError.fetchDigest, deleteCalls := [] }
    | some digest =>
      if h.dryRun then
        some { err := none, deleteCalls := [] }
      else if h.DeleteManifest img digest then
        some { err := none, deleteCalls := [(img, digest)] }
      else
        some { err := some DeleteError.deleteManifest, deleteCalls := [(img, digest)] }

/-! ## `pkg/helpers/filterHelper.go` -/

/-- Go `filterHelper`.  `MinAge` is a Go `int`.  The method
`time.Time.AddDate` of the standard library is external to the repository: the
field `AddDate t days` is what `t.AddDate(0, 0, days)` returns in the location
of the process (Go moves the calendar date of `t` in that location by `days`
days, with the wrap-around of its integer arithmetic), on instants in
nanoseconds. -/
structure filterHelper where
  rh : regHelper
  ExcludeNameFilters : List Str
  IncludeNameFilters : List Str
  MinAge : Int
  AddDate : Int → Int → Int

/-- The three counters of the `stats` map of `FilterImages`. -/
structure FilterStats where
  exclude_name : Nat
  include_name : Nat
  min_age : Nat
deriving DecidableEq, Repr

/-- The state of the loop of `FilterImages`: the slice `filtered` and the map
`stats`. -/
structure FilterState where
  filtered : List Str
  stats : FilterStats
deriving DecidableEq, Repr

/-- Nanoseconds in a day of 24 hours. -/
def nsPerDay : Int := 86400000000000

/-- Nanoseconds in a millisecond. -/
def nsPerMillisecond : Int := 1000000

/-- The value of a 64-bit Go `int` expression whose exact value is `x`. -/
def wrapInt64 (x : Int) : Int :=
  (x + 9223372036854775808) % 18446744073709551616 - 9223372036854775808

/-- The threshold `time.Now().AddDate(0, 0, -h.MinAge)` of line 61, for the
value `now` of `time.Now()`. -/
def filterHelper.threshold (h : filterHelper) (now : Int) : Int :=
  h.AddDate now (wrapInt64 (-h.MinAge))

/-- One answer for `AddDate`: what `t.AddDate(0, 0, days)` is in a location
without clock changes (such as UTC) while nothing overflows, every day being
24 hours. -/
def utcAddDate (t : Int) (days : Int) : Int := t + days * nsPerDay

/-- Another answer for `AddDate`: a location whose clocks went forward by one
hour between the two dates, so that the same wall-clock time `days` days
earlier is one hour less far back (as from 31 March to 1 March 2000 in
Brussels). -/
def clockChangeAddDate (t : Int) (days : Int) : Int := t + days * nsPerDay + 3600000000000

/-- Go `t.After(u)`. -/
def After (t u : Int) : Bool := decide (u < t)

/-- The closure `stringContains(img)` of `FilterImages` (lines 27-31): true of
a pattern that is NOT contained in `img`. -/
def stringContains (img : Str) : Str → Bool :=
  fun s => !Contains img s

/-- The body of the loop of `FilterImages` (lines 44-66) for one image.  `now`
is the value `time.Now()` returns; the code reads the clock in each iteration,
the model takes one instant for the whole call.  `none` is a panic. -/
def filterHelper.filterStep (h : filterHelper) (now : Int) (st : FilterState)
    (image : Str) : Option FilterState :=
  match h.rh.splitImageTag image with
  | none => none
  | some (img, _) =>
    if h.IncludeNameFilters.length > 0 &&
        (slicesFilter h.IncludeNameFilters (stringContains img)).length
          == h.IncludeNameFilters.length then
      some { st with stats := { st.stats with include_name := st.stats.include_name + 1 } }
    else if h.ExcludeNameFilters.length > 0 &&
        (slicesFilter h.ExcludeNameFilters (stringContains img)).length
          != h.ExcludeNameFilters.length then
      some { st with stats := { st.stats with exclude_name := st.stats.exclude_name + 1 } }
    else
      match h.rh.GetImageDate image with
      | none => none
      | some (some created) =>
        if After created (h.threshold now) then
          some { st with stats := { st.stats with min_age := st.stats.min_age + 1 } }
        else
          some { st with filtered := st.filtered ++ [image] }
      | some none => some { st with filtered := st.filtered ++ [image] }

/-- The loop of `FilterImages` (line 43) over the images, from a given state. -/
def filterHelper.filterLoop (h : filterHelper) (now : Int) :
    List Str → FilterState → Option FilterState
  | [], st => some st
  | image :: rest, st =>
    match h.filterStep now st image with
    | none => none
    | some st1 => h.filterLoop now rest st1

/-- The final loop state of `FilterImages`, from the empty slice and the
counters at 0 (lines 25 and 33-37). -/
def filterHelper.FilterImagesState (h : filterHelper) (now : Int) (images : List Str) :
    Option FilterState :=
  h.filterLoop now images
    { filtered := [], stats := { exclude_name := 0, include_name := 0, min_age := 0 } }

/-- Go `filterHelper.FilterImages` (lines 24-76): the pair
`(filtered, len(images) - len(filtered))`; `none` is a panic. -/
def filterHelper.FilterImages (h : filterHelper) (now : Int) (images : List Str) :
    Option (List Str × Int) :=
  match h.FilterImagesState now images with
  | none => none
  | some st => some (st.filtered, (images.length : Int) - (st.filtered.length : Int))

/-- What the loop body of `FilterImages` does with one image: it is appended
to `filtered` (`kept`), or it is skipped under one of the three counters. -/
inductive Verdict where
  | kept
  | include_name
  | exclude_name
  | min_age
deriving DecidableEq, Repr

/-- The branch the loop body of `FilterImages` takes for one image, read off
the conditions at lines 47, 54 and 61; `none` is a panic. -/
def filterHelper.verdict (h : filterHelper) (now : Int) (image : Str) : Option Verdict :=
  match h.rh.splitImageTag image with
  | none => none
  | some (img, _) =>
    if h.IncludeNameFilters.length > 0 &&
        (slicesFilter h.IncludeNameFilters (stringContains img)).length
          == h.IncludeNameFilters.length then
      some Verdict.include_name
    else if h.ExcludeNameFilters.length > 0 &&
        (slicesFilter h.ExcludeNameFilters (stringContains img)).length
          != h.ExcludeNameFilters.length then
      some Verdict.exclude_name
    else
      match h.rh.GetImageDate image with
      | none => none
      | some (some created) =>
        if After created (h.threshold now) then some Verdict.min_age
        else some Verdict.kept
      | some none => some Verdict.kept

/-- The effect of each branch of the loop body on the loop state. -/
def Verdict.apply (v : Verdict) (st : FilterState) (image : Str) : FilterState :=
  match v with
  | Verdict.kept => { st with filtered := st.filtered ++ [image] }
  | Verdict.include_name =>
    { st with stats := { st.stats with include_name := st.stats.include_name + 1 } }
  | Verdict.exclude_name =>
    { st with stats := { st.stats with exclude_name := st.stats.exclude_name + 1 } }
  | Verdict.min_age =>
    { st with stats := { st.stats with min_age := st.stats.min_age + 1 } }

/-- The helper `h` with one more pattern appended to its exclude list. -/
def filterHelper.addExclude (h : filterHelper) (p : Str) : filterHelper :=
  { h with ExcludeNameFilters := h.ExcludeNameFilters ++ [p] }

/-- The helper `h` with one more pattern appended to its include list. -/
def filterHelper.addInclude (h : filterHelper) (p : Str) : filterHelper :=
  { h with IncludeNameFilters := h.IncludeNameFilters ++ [p] }

/-- The three conditions of the retention rules on a candidate `c`, in the
words of the specification: `r` is the repository name `splitImageTag` gives
for `c`; (1) the include list is empty or one of its patterns is a substring
of `r`; (2) no pattern of the exclude list is a substring of `r`; (3) the
creation-date lookup for `c` fails, or it succeeds with a creation time that is
not after `now` minus `MinAge` days, the instant `h.threshold now`. -/
def EligibleForDeletion (h : filterHelper) (now : Int) (c : Str) : Prop :=
  ∃ r tag, h.rh.splitImageTag c = some (r, tag) ∧
    (h.IncludeNameFilters = [] ∨ ∃ p ∈ h.IncludeNameFilters, p <:+: r) ∧
    (∀ p ∈ h.ExcludeNameFilters, ¬ p <:+: r) ∧
    (h.rh.GetImageDate c = some none ∨
      ∃ created, h.rh.GetImageDate c = some (some created) ∧
        ¬ h.threshold now < created)

/-! ## Concrete helpers and inputs -/

/-- A registry at `reg.io` whose metadata lookups all fail, whose digests all
resolve, and whose deletions all succeed. -/
def sampleRegistry : regHelper :=
  { RegPrefix := "reg.io".toList
    dryRun := false
    metaResult := fun _ _ => none
    ManifestDigest := fun _ _ => some "sha256:abc".toList
    DeleteManifest := fun _ _ => true }

/-- A registry at `reg.io` in which every image was created at the instant
`created`. -/
def datedRegistry (created : Int) : regHelper :=
  { sampleRegistry with
    metaResult := fun _ _ => some { Created := created, TotalSize := 10 } }

/-- A filter with the given lists and a minimum age of 30 days. -/
def sampleFilter (rh : regHelper) (excl incl : List Str) : filterHelper :=
  { rh := rh, ExcludeNameFilters := excl, IncludeNameFilters := incl, MinAge := 30,
    AddDate := utcAddDate }

/-- A filter with empty lists and a minimum age of 30 days, in a location whose
clocks went forward by an hour during those days. -/
def clockChangeFilter (rh : regHelper) : filterHelper :=
  { rh := rh, ExcludeNameFilters := [], IncludeNameFilters := [], MinAge := 30,
    AddDate := clockChangeAddDate }

/-- The registry `sampleRegistry` reached at `localhost:5000`. -/
def portRegistry : regHelper :=
  { sampleRegistry with RegPrefix := "localhost:5000".toList }

/-- The registry `sampleRegistry` with `dryRun` set. -/
def dryRunRegistry : regHelper :=
  { sampleRegistry with dryRun := true }

/-! ## `pkg/caching/diskstore.go` -/

/-- The content of a file. -/
abbrev Bytes := List Nat

/-- Joins path elements with a slash between them. -/
def joinSlash : List Str → Str
  | [] => []
  | [x] => x
  | x :: y :: rest => x ++ '/' :: joinSlash (y :: rest)

/-- The element loop of Go `path.Clean`: empty elements and `.` are dropped,
`..` removes the element before it, or is kept at the front of a path that is
not rooted.  `out` holds the elements kept so far, last first. -/
def cleanElems (rooted : Bool) : List Str → List Str → List Str
  | out, [] => out.reverse
  | out, elem :: rest =>
    if elem = [] ∨ elem = ['.'] then cleanElems rooted out rest
    else if elem = ['.', '.'] then
      match out with
      | top :: below =>
        if top = ['.', '.'] then cleanElems rooted (elem :: out) rest
        else cleanElems rooted below rest
      | [] =>
        if rooted then cleanElems rooted [] rest
        else cleanElems rooted [elem] rest
    else cleanElems rooted (elem :: out) rest

/-- Go `path.Clean`. -/
def pathClean (p : Str) : Str :=
  if p = [] then ['.']
  else
    let rooted : Bool := p.head? = some '/'
    let body := joinSlash (cleanElems rooted [] (Split p '/'))
    if rooted then '/' :: body
    else if body = [] then ['.']
    else body

/-- Go `path.Join(a, b)`. -/
def pathJoin (a b : Str) : Str :=
  if a = [] ∧ b = [] then []
  else if a = [] then pathClean b
  else pathClean (a ++ '/' :: b)

/-- Go `DiskStore[T]`. -/
structure DiskStore where
  baseDir : Str

/-- Go `DiskStore.keyPath` (lines 26-28). -/
def DiskStore.keyPath (store : DiskStore) (key : Str) : Str :=
  pathJoin store.baseDir key ++ ".cache".toList

/-- What a call of `os.WriteFile` on a path does: it writes all the bytes; or
it cannot open the file for writing (a read-only file, a missing directory) and
writes nothing; or it truncates the file and fails after the first `n`
bytes. -/
inductive WriteOutcome where
  | written
  | openFails
  | writesOnly (n : Nat)
deriving DecidableEq, Repr

/-- The files the store works on: `files p` is the content of the file at path
`p` (`none` when there is no such file, so that `os.Stat` reports
`os.ErrNotExist`), `lockable p` says whether
`flock.TryRLockContext` on `p` obtains the lock within its bound of one
second (for which the directory of `p` must exist), and `writeOutcome p` is
what `os.WriteFile` on `p` does. -/
structure FileSystem where
  files : Str → Option Bytes
  lockable : Str → Bool
  writeOutcome : Str → WriteOutcome

/-- The `encoding/gob` encoder and decoder for the value type `T`; `none` is an
error. -/
structure Gob (T : Type) where
  encode : T → Option Bytes
  decode : Bytes → Option T

/-- The errors of `DiskStore.Get` and `DiskStore.Set`: `NotFound` is
`lib_store.NotFound{}`, the others are the `fmt.Errorf` values, the encoder
error and the error of `os.WriteFile`. -/
inductive StoreError where
  | NotFound
  | lockFailed
  | readFailed
  | decodeFailed
  | encodeFailed
  | writeFailed
deriving DecidableEq, Repr

/-- The first result of `DiskStore.Get`: the untyped `nil`, the variable
`cacheValue` (a nil byte slice, never assigned), or the decoded `*data`. -/
inductive GetValue (T : Type) where
  | nil
  | cacheValue
  | data (v : T)
deriving DecidableEq, Repr

/-- The files with the content of the file at `filename` replaced by `bytes`. -/
def FileSystem.setFile (fs : FileSystem) (filename : Str) (bytes : Bytes) : FileSystem :=
  { fs with files := fun p => if p = filename then some bytes else fs.files p }

/-- Go `os.WriteFile(filename, bytes, 0600)`: the error returned (`none` for
nil) and the files afterwards. -/
def FileSystem.WriteFile (fs : FileSystem) (filename : Str) (bytes : Bytes) :
    Option StoreError × FileSystem :=
  match fs.writeOutcome filename with
  | WriteOutcome.written => (none, fs.setFile filename bytes)
  | WriteOutcome.openFails => (some StoreError.writeFailed, fs)
  | WriteOutcome.writesOnly n => (some StoreError.writeFailed, fs.setFile filename (bytes.take n))

/-- The call `lock.TryRLockContext(ctx, 250ms)` on `flock.New(filename)`.  The
library opens the file with `O_CREATE`, so after a lock that was obtained the
file exists, empty if it did not exist before.  A lock that is not obtained
(the file cannot be opened, or it is held elsewhere until the bound expires)
leaves the files as they are. -/
def FileSystem.TryRLockContext (fs : FileSystem) (filename : Str) : Bool × FileSystem :=
  if fs.lockable filename then
    match fs.files filename with
    | some _ => (true, fs)
    | none => (true, fs.setFile filename [])
  else (false, fs)

/-- Go `DiskStore.Get` (lines 30-65): the pair of results and the files
afterwards. -/
def DiskStore.Get {T : Type} (store : DiskStore) (gob : Gob T) (fs : FileSystem)
    (key : Str) : (GetValue T × Option StoreError) × FileSystem :=
  let filename := store.keyPath key
  match fs.files filename with
  | none => ((GetValue.nil, some StoreError.NotFound), fs)
  | some _ =>
    match fs.TryRLockContext filename with
    | (false, fs1) => ((GetValue.cacheValue, some StoreError.lockFailed), fs1)
    | (true, fs1) =>
      match fs1.files filename with
      | none => ((GetValue.cacheValue, some StoreError.readFailed), fs1)
      | some fileBytes =>
        match gob.decode fileBytes with
        | none => ((GetValue.cacheValue, some StoreError.decodeFailed), fs1)
        | some data => ((GetValue.data data, none), fs1)

/-- Go `DiskStore.Set` (lines 69-93): the error returned (`none` for nil) and
the files afterwards.  After a successful encode the error returned is the one
of `os.WriteFile`. -/
def DiskStore.Set {T : Type} (store : DiskStore) (gob : Gob T) (fs : FileSystem)
    (key : Str) (value : T) : Option StoreError × FileSystem :=
  let filename := store.keyPath key
  match fs.TryRLockContext filename with
  | (false, fs1) => (some StoreError.lockFailed, fs1)
  | (true, fs1) =>
    match gob.encode value with
    | none => (some StoreError.encodeFailed, fs1)
    | some bytes => fs1.WriteFile filename bytes

/-- The files after a sequence of `Set` calls, whatever each call returned. -/
def DiskStore.SetAll {T : Type} (store : DiskStore) (gob : Gob T) :
    FileSystem → List (Str × T) → FileSystem
  | fs, [] => fs
  | fs, (key, value) :: rest => store.SetAll gob (store.Set gob fs key value).2 rest

/-- The store `NewCache` builds (`instance.go`), under `./.cache`. -/
def sampleStore : DiskStore :=
  { baseDir := "./.cache".toList }

/-- A stand-in for the gob encoding of `imageMeta`: the sign and magnitude of
`Created`, then `TotalSize`. -/
def sampleGob : Gob imageMeta :=
  { encode := fun m => some [if m.Created < 0 then 1 else 0, m.Created.natAbs, m.TotalSize]
    decode := fun bytes =>
      match bytes with
      | [sign, magnitude, size] =>
        some { Created := if sign = 1 then -(magnitude : Int) else (magnitude : Int)
               TotalSize := size }
      | _ => none }

/-- No files yet; every lock can be obtained (the directories of the keys
exist) and every write succeeds. -/
def emptyFiles : FileSystem :=
  { files := fun _ => none, lockable := fun _ => true
    writeOutcome := fun _ => WriteOutcome.written }

/-- One cache file, for the key `app:v1` of `sampleStore`, and no lock can be
obtained. -/
def lockedFiles : FileSystem :=
  { files := fun p => if p = ".cache/app:v1.cache".toList then some [0, 5, 10] else none
    lockable := fun _ => false
    writeOutcome := fun _ => WriteOutcome.written }

/-- One cache file, for the key `app:v1` of `sampleStore`, holding the value
created at 5 with size 10; every lock can be obtained, and the file is
read-only, so that `os.WriteFile` cannot open it. -/
def readOnlyFiles : FileSystem :=
  { files := fun p => if p = ".cache/app:v1.cache".toList then some [0, 5, 10] else none
    lockable := fun _ => true
    writeOutcome := fun _ => WriteOutcome.openFails }

/-- A key in normal form: split at the slashes, none of its elements is empty,
`.` or `..`, so that `path.Join` leaves the key as it is. -/
def NormalKey (key : Str) : Prop :=
  ∀ elem ∈ Split key '/', elem ≠ [] ∧ elem ≠ ['.'] ∧ elem ≠ ['.', '.']

instance NormalKey.decidable (key : Str) : Decidable (NormalKey key) := by
  unfold NormalKey
  infer_instance

/-! ## `main.go`: the deletion loop of `run` -/

/-- How the deletion loop of `run` ends: it runs through the whole list, or
`ui.YesNo` ends the process (`log.Fatal` on a read error, or no answer is ever
given), or `DeleteImage` panics. -/
inductive LoopEnd where
  | completed
  | fatal
  | panic
deriving DecidableEq, Repr

/-- One call of `regHelper.DeleteImage` by the deletion loop: the position of
the candidate in the list, the candidate, and what the call did (`none` for a
panic). -/
structure Attempt where
  position : Nat
  image : Str
  outcome : Option DeleteOutcome
deriving DecidableEq, Repr

/-- What the deletion loop did: how it ended, the `DeleteImage` calls it made,
in order, and the lines `Failed to delete image: ...` it logged, each with the
position of the candidate and the error. -/
structure DeletionTrace where
  ended : LoopEnd
  attempts : List Attempt
  logged : List (Nat × DeleteError)
deriving DecidableEq, Repr

/-- The prompt `fmt.Sprintf("Delete %s?", image)`. -/
def deletePrompt (image : Str) : Str :=
  "Delete ".toList ++ image ++ "?".toList

/-- The condition `yolo || ui.YesNo(...)` of the deletion loop for the
candidate at position `i`: with `yolo` set the question is not asked.
`YesNo i prompt` is what `ui.YesNo` returns for the question asked at
position `i`, and `none` when it does not return. -/
def confirmation (yolo : Bool) (YesNo : Nat → Str → Option Bool) (i : Nat) (image : Str) :
    Option Bool :=
  if yolo then some true else YesNo i (deletePrompt image)

/-- The deletion loop of `run` (`main.go` lines 159-165) over the candidates
from position `i` on. -/
def deleteLoop (rh : regHelper) (yolo : Bool) (YesNo : Nat → Str → Option Bool) :
    Nat → List Str → DeletionTrace
  | _, [] => { ended := LoopEnd.completed, attempts := [], logged := [] }
  | i, image :: rest =>
    match confirmation yolo YesNo i image with
    | none => { ended := LoopEnd.fatal, attempts := [], logged := [] }
    | some false => deleteLoop rh yolo YesNo (i + 1) rest
    | some true =>
      match rh.DeleteImage image with
      | none =>
        { ended := LoopEnd.panic
          attempts := [{ position := i, image := image, outcome := none }]
          logged := [] }
      | some out =>
        let later := deleteLoop rh yolo YesNo (i + 1) rest
        { ended := later.ended
          attempts := { position := i, image := image, outcome := some out } :: later.attempts
          logged :=
            match out.err with
            | some e => (i, e) :: later.logged
            | none => later.logged }

/-- The confirmed candidates of a list, each with its position, in the words of
the specification: with the global bypass on, every candidate; otherwise the
candidates for which the user answers yes, among those reached before a
question that gets no answer. -/
def confirmedCandidates (yolo : Bool) (YesNo : Nat → Str → Option Bool)
    (i : Nat) (toDelete : List Str) : List (Nat × Str) :=
  ((toDelete.enumFrom i).takeWhile
      (fun c => (confirmation yolo YesNo c.1 c.2).isSome)).filter
    (fun c => confirmation yolo YesNo c.1 c.2 == some true)

/-- The include rule excludes a candidate with repository name `r`, in the
words of the specification: the include list is not empty and none of its
patterns is a substring of `r`. -/
def IncludeRuleExcludes (h : filterHelper) (r : Str) : Prop :=
  h.IncludeNameFilters ≠ [] ∧ ∀ p ∈ h.IncludeNameFilters, ¬ p <:+: r

/-- The exclude rule excludes a candidate with repository name `r`: some
pattern of the exclude list is a substring of `r`. -/
def ExcludeRuleExcludes (h : filterHelper) (r : Str) : Prop :=
  ∃ p ∈ h.ExcludeNameFilters, p <:+: r

/-- The minimum-age rule excludes the candidate `c`: the lookup of its creation
time succeeds with a time after `now` minus `MinAge` days. -/
def AgeRuleExcludes (h : filterHelper) (now : Int) (c : Str) : Prop :=
  ∃ created, h.rh.GetImageDate c = some (some created) ∧ h.threshold now < created

/-- A registry at `reg.io` in which every image was created 40 days before the
instant 0, and whose `DeleteManifest` fails for the repository `app` and
succeeds for every other one. -/
def failingRegistry : regHelper :=
  { sampleRegistry with
    metaResult := fun _ _ => some { Created := -40 * nsPerDay, TotalSize := 10 }
    DeleteManifest := fun img _ => img != "app".toList }

/-- A user who answers no to the first question and yes to every later one. -/
def sampleAnswers : Nat → Str → Option Bool :=
  fun i _ => some (i != 0)

/-- A registry at `reg.io` in which the images tagged `v0` were created 40
days before the instant 0 and all others 10 days before it. -/
def mixedRegistry : regHelper :=
  { sampleRegistry with
    metaResult := fun _ tag =>
      if tag = "v0".toList then some { Created := -40 * nsPerDay, TotalSize := 10 }
      else some { Created := -10 * nsPerDay, TotalSize := 10 } }

/-- Four candidates of `mixedRegistry`. -/
def mixedCandidates : List Str :=
  ["reg.io/lib:v1".toList, "reg.io/old:v1".toList, "reg.io/app:v1".toList,
    "reg.io/app:v0".toList]

/-! ## Facts about the string functions -/

theorem slicesContains_iff (list : List Str) (s : Str) :
    slicesContains list s = true ↔ s ∈ list := by
  induction list with
  | nil => simp [slicesContains]
  | cons x xs ih =>
    simp only [slicesContains, Bool.or_eq_true, decide_eq_true_eq, ih, List.mem_cons]
    constructor
    · rintro (h | h)
      · exact Or.inl h.symm
      · exact Or.inr h
    · rintro (h | h)
      · exact Or.inl h.symm
      · exact Or.inr h

theorem slicesFilter_foldl (keep : Str → Bool) (list acc : List Str) :
    list.foldl (fun d s => if keep s then d ++ [s] else d) acc = acc ++ list.filter keep := by
  induction list generalizing acc with
  | nil => simp
  | cons x xs ih =>
    simp only [List.foldl_cons, ih, List.filter_cons]
    by_cases hx : keep x = true <;> simp [hx]

theorem slicesFilter_eq (list : List Str) (keep : Str → Bool) :
    slicesFilter list keep = list.filter keep := by
  simp [slicesFilter, slicesFilter_foldl]

theorem HasPrefix_iff (s pre : Str) : HasPrefix s pre = true ↔ pre <+: s := by
  induction pre generalizing s with
  | nil => cases s <;> simp [HasPrefix]
  | cons p ps ih =>
    cases s with
    | nil => simp [HasPrefix]
    | cons c cs =>
      simp only [HasPrefix, Bool.and_eq_true, decide_eq_true_eq, ih, List.cons_prefix_cons]
      constructor
      · rintro ⟨h1, h2⟩
        exact ⟨h1.symm, h2⟩
      · rintro ⟨h1, h2⟩
        exact ⟨h1.symm, h2⟩

theorem Contains_iff (s sub : Str) : Contains s sub = true ↔ sub <:+: s := by
  induction s with
  | nil =>
    simp only [Contains, HasPrefix_iff, List.prefix_nil, List.infix_nil]
  | cons c cs ih =>
    simp only [Contains, Bool.or_eq_true, HasPrefix_iff, ih, List.infix_cons_iff]

theorem Split_ne_nil (s : Str) (sep : Char) : Split s sep ≠ [] := by
  cases s with
  | nil => simp [Split]
  | cons c cs =>
    simp only [Split]
    split
    · simp
    · split <;> simp

theorem Split_of_not_mem (s : Str) (sep : Char) (h : sep ∉ s) : Split s sep = [s] := by
  induction s with
  | nil => simp [Split]
  | cons c cs ih =>
    simp only [List.mem_cons, not_or] at h
    have hc : ¬ c = sep := fun e => h.1 e.symm
    simp [Split, hc, ih h.2]

theorem Split_append_sep (a b : Str) (sep : Char) (h : sep ∉ a) :
    Split (a ++ sep :: b) sep = a :: Split b sep := by
  induction a with
  | nil => simp [Split]
  | cons c cs ih =>
    simp only [List.mem_cons, not_or] at h
    have hc : ¬ c = sep := fun e => h.1 e.symm
    simp [Split, hc, ih h.2]

theorem Split_of_mem (s : Str) (sep : Char) (h : sep ∈ s) :
    ∃ a b, sep ∉ a ∧ s = a ++ sep :: b ∧ Split s sep = a :: Split b sep := by
  induction s with
  | nil => simp at h
  | cons c cs ih =>
    by_cases hc : c = sep
    · exact ⟨[], cs, by simp, by simp [hc], by simp [Split, hc]⟩
    · have hmem : sep ∈ cs := by
        rcases List.mem_cons.mp h with h1 | h1
        · exact absurd h1.symm hc
        · exact h1
      obtain ⟨a, b, ha, hs, hsp⟩ := ih hmem
      refine ⟨c :: a, b, ?_, by simp [hs], ?_⟩
      · simp only [List.mem_cons, not_or]
        exact ⟨fun e => hc e.symm, ha⟩
      · simp [Split, hc, hsp]

theorem TrimPrefix_append (pre s : Str) : TrimPrefix (pre ++ s) pre = s := by
  have h : HasPrefix (pre ++ s) pre = true := (HasPrefix_iff _ _).2 (List.prefix_append pre s)
  simp [TrimPrefix, h]

/-! ## The reconcile loop -/

theorem reconcile_foldl (A B : List Str) (acc : List Str × List Str) :
    B.foldl (reconcileStep A) acc =
      (acc.1 ++ B.filter (fun x => decide (x ∉ A)), acc.2 ++ B.filter (fun x => decide (x ∈ A))) := by
  induction B generalizing acc with
  | nil => simp
  | cons x xs ih =>
    simp only [List.foldl_cons, ih, List.filter_cons]
    by_cases hx : x ∈ A
    · have hc : slicesContains A x = true := (slicesContains_iff A x).2 hx
      simp [reconcileStep, hc, hx]
    · have hc : slicesContains A x = false := by
        cases hb : slicesContains A x
        · rfl
        · exact absurd ((slicesContains_iff A x).1 hb) hx
      simp [reconcileStep, hc, hx]

/-- C1: for every cluster list `A` and registry list `B` the reconcile loop of
`run` yields `toDelete` = the elements of `B` that are not members of `A` and
`toKeep` = the elements of `B` that are members of `A`, both in the order of
`B` (each is `B` filtered), and `len(toDelete) + len(toKeep) = len(B)`;
membership is equality of the strings. -/
theorem reconcile_set_difference (A B : List Str) :
    (reconcile A B).1 = B.filter (fun x => decide (x ∉ A)) ∧
    (reconcile A B).2 = B.filter (fun x => decide (x ∈ A)) ∧
    (reconcile A B).1.length + (reconcile A B).2.length = B.length := by
  have h := reconcile_foldl A B ([], [])
  simp only [List.nil_append] at h
  refine ⟨by rw [reconcile, h], by rw [reconcile, h], ?_⟩
  rw [reconcile, h]
  simp only
  have hl := List.length_eq_length_filter_add (l := B) (fun x => decide (x ∈ A))
  have hfun : (fun x => decide (x ∉ A)) = (fun x => !(decide (x ∈ A))) := by
    funext x
    simp
  rw [hfun]
  omega

/-! ## The retention filter -/

theorem filterStep_eq_verdict (h : filterHelper) (now : Int) (st : FilterState) (image : Str) :
    h.filterStep now st image = (h.verdict now image).map (fun v => v.apply st image) := by
  unfold filterHelper.filterStep filterHelper.verdict
  cases hs : h.rh.splitImageTag image with
  | none => rfl
  | some it =>
    obtain ⟨img, tag⟩ := it
    simp only
    split
    · rfl
    · split
      · rfl
      · cases hd : h.rh.GetImageDate image with
        | none => rfl
        | some d =>
          cases d with
          | none => rfl
          | some created =>
            simp only
            split <;> rfl

theorem include_cond_iff (I : List Str) (img : Str) :
    (I.length > 0 && (slicesFilter I (stringContains img)).length == I.length) = true ↔
      I ≠ [] ∧ ∀ p ∈ I, ¬ p <:+: img := by
  rw [slicesFilter_eq]
  simp only [Bool.and_eq_true, decide_eq_true_eq, beq_iff_eq, List.filter_length_eq_length,
    List.length_pos, stringContains, Bool.not_eq_true_eq_eq_false, Bool.not_eq_eq_eq_not,
    Bool.not_true, ← Bool.not_eq_true, Contains_iff, gt_iff_lt]

theorem exclude_cond_iff (E : List Str) (img : Str) :
    (E.length > 0 && (slicesFilter E (stringContains img)).length != E.length) = true ↔
      ∃ p ∈ E, p <:+: img := by
  rw [slicesFilter_eq]
  simp only [Bool.and_eq_true, decide_eq_true_eq, bne_iff_ne, ne_eq, List.filter_length_eq_length,
    List.length_pos, stringContains, Bool.not_eq_true_eq_eq_false, Bool.not_eq_eq_eq_not,
    Bool.not_true, ← Bool.not_eq_true, Contains_iff, gt_iff_lt, not_forall, not_not, exists_prop]
  constructor
  · rintro ⟨_, hp⟩
    exact hp
  · rintro ⟨p, hp, hi⟩
    exact ⟨List.ne_nil_of_mem hp, p, hp, hi⟩

theorem splitImageTag_isSome_iff (rh : regHelper) (c : Str) :
    (rh.splitImageTag c).isSome = true ↔ ':' ∈ TrimPrefix c (rh.RegPrefix ++ ['/']) := by
  unfold regHelper.splitImageTag
  constructor
  · intro h
    by_contra hn
    rw [Split_of_not_mem _ _ hn] at h
    simp at h
  · intro h
    obtain ⟨a, b, _, _, hsp⟩ := Split_of_mem _ _ h
    rw [hsp]
    cases hb : Split b ':' with
    | nil => exact absurd hb (Split_ne_nil b ':')
    | cons x xs => rfl

theorem GetImageDate_isSome_iff (rh : regHelper) (c : Str) :
    (rh.GetImageDate c).isSome = (rh.splitImageTag c).isSome := by
  unfold regHelper.GetImageDate
  cases hs : rh.splitImageTag c with
  | none => rfl
  | some it =>
    obtain ⟨img, tag⟩ := it
    simp only
    cases rh.metaResult img tag <;> rfl

theorem verdict_isSome_iff (h : filterHelper) (now : Int) (c : Str) :
    (h.verdict now c).isSome = (h.rh.splitImageTag c).isSome := by
  have hd := GetImageDate_isSome_iff h.rh c
  unfold filterHelper.verdict
  cases hs : h.rh.splitImageTag c with
  | none => rfl
  | some it =>
    obtain ⟨img, tag⟩ := it
    rw [hs] at hd
    simp only
    split
    · rfl
    · split
      · rfl
      · cases hg : h.rh.GetImageDate c with
        | none => rw [hg] at hd; simp at hd
        | some d =>
          cases d with
          | none => rfl
          | some created =>
            simp only
            split <;> rfl

theorem filterLoop_none (h : filterHelper) (now : Int) (images : List Str) (st : FilterState)
    (c : Str) (hc : c ∈ images) (hv : h.verdict now c = none) :
    h.filterLoop now images st = none := by
  induction images generalizing st with
  | nil => simp at hc
  | cons x xs ih =>
    simp only [filterHelper.filterLoop, filterStep_eq_verdict]
    cases hx : h.verdict now x with
    | none => rfl
    | some v =>
      simp only [Option.map_some']
      rcases List.mem_cons.mp hc with h1 | h1
      · rw [h1, hx] at hv
        cases hv
      · exact ih _ h1

theorem filterLoop_some (h : filterHelper) (now : Int) (images : List Str) (st : FilterState)
    (hall : ∀ c ∈ images, (h.verdict now c).isSome = true) :
    h.filterLoop now images st = some
      { filtered := st.filtered ++ images.filter (fun c => h.verdict now c == some Verdict.kept)
        stats :=
          { exclude_name := st.stats.exclude_name +
              images.countP (fun c => h.verdict now c == some Verdict.exclude_name)
            include_name := st.stats.include_name +
              images.countP (fun c => h.verdict now c == some Verdict.include_name)
            min_age := st.stats.min_age +
              images.countP (fun c => h.verdict now c == some Verdict.min_age) } } := by
  induction images generalizing st with
  | nil => simp [filterHelper.filterLoop]
  | cons x xs ih =>
    have hx := hall x (List.mem_cons_self x xs)
    have hxs : ∀ c ∈ xs, (h.verdict now c).isSome = true :=
      fun c hc => hall c (List.mem_cons_of_mem x hc)
    simp only [filterHelper.filterLoop, filterStep_eq_verdict]
    cases hv : h.verdict now x with
    | none => rw [hv] at hx; simp at hx
    | some v =>
      simp only [Option.map_some']
      rw [ih _ hxs]
      cases v <;>
        simp [Verdict.apply, List.filter_cons, List.countP_cons, hv, Nat.add_assoc, Nat.add_comm]

theorem FilterImagesState_some (h : filterHelper) (now : Int) (images : List Str)
    (hall : ∀ c ∈ images, (h.rh.splitImageTag c).isSome = true) :
    h.FilterImagesState now images = some
      { filtered := images.filter (fun c => h.verdict now c == some Verdict.kept)
        stats :=
          { exclude_name := images.countP (fun c => h.verdict now c == some Verdict.exclude_name)
            include_name := images.countP (fun c => h.verdict now c == some Verdict.include_name)
            min_age := images.countP (fun c => h.verdict now c == some Verdict.min_age) } } := by
  have hv : ∀ c ∈ images, (h.verdict now c).isSome = true := by
    intro c hc
    rw [verdict_isSome_iff]
    exact hall c hc
  unfold filterHelper.FilterImagesState
  rw [filterLoop_some h now images _ hv]
  simp

theorem FilterImages_some (h : filterHelper) (now : Int) (images : List Str)
    (hall : ∀ c ∈ images, (h.rh.splitImageTag c).isSome = true) :
    h.FilterImages now images = some
      (images.filter (fun c => h.verdict now c == some Verdict.kept),
       (images.length : Int) -
         ((images.filter (fun c => h.verdict now c == some Verdict.kept)).length : Int)) := by
  unfold filterHelper.FilterImages
  rw [FilterImagesState_some h now images hall]

theorem FilterImages_none (h : filterHelper) (now : Int) (images : List Str)
    (c : Str) (hc : c ∈ images) (hs : h.rh.splitImageTag c = none) :
    h.FilterImages now images = none := by
  have hv : h.verdict now c = none := by
    have e := verdict_isSome_iff h now c
    rw [hs] at e
    cases hv : h.verdict now c with
    | none => rfl
    | some v => rw [hv] at e; simp at e
  unfold filterHelper.FilterImages filterHelper.FilterImagesState
  rw [filterLoop_none h now images _ c hc hv]

theorem verdict_kept_iff (h : filterHelper) (now : Int) (c : Str) :
    h.verdict now c = some Verdict.kept ↔
      ∃ r tag, h.rh.splitImageTag c = some (r, tag) ∧
        (h.IncludeNameFilters = [] ∨ ∃ p ∈ h.IncludeNameFilters, p <:+: r) ∧
        (∀ p ∈ h.ExcludeNameFilters, ¬ p <:+: r) ∧
        (h.rh.GetImageDate c = some none ∨
          ∃ created, h.rh.GetImageDate c = some (some created) ∧
            ¬ h.threshold now < created) := by
  unfold filterHelper.verdict
  cases hs : h.rh.splitImageTag c with
  | none => simp
  | some it =>
    obtain ⟨img, tag⟩ := it
    have hi := include_cond_iff h.IncludeNameFilters img
    have he := exclude_cond_iff h.ExcludeNameFilters img
    dsimp only
    by_cases c1 : (h.IncludeNameFilters.length > 0 &&
        (slicesFilter h.IncludeNameFilters (stringContains img)).length
          == h.IncludeNameFilters.length) = true
    · rw [if_pos c1]
      have hi1 := hi.1 c1
      constructor
      · intro hx
        cases hx
      · rintro ⟨r, t, hrt, hinc, _⟩
        cases hrt
        rcases hinc with h0 | ⟨p, hp, hpi⟩
        · exact absurd h0 hi1.1
        · exact absurd hpi (hi1.2 p hp)
    · rw [if_neg c1]
      have hi1 : h.IncludeNameFilters = [] ∨ ∃ p ∈ h.IncludeNameFilters, p <:+: img := by
        by_contra hn
        rw [not_or] at hn
        apply c1
        refine hi.2 ⟨hn.1, ?_⟩
        intro p hp hpi
        exact hn.2 ⟨p, hp, hpi⟩
      by_cases c2 : (h.ExcludeNameFilters.length > 0 &&
          (slicesFilter h.ExcludeNameFilters (stringContains img)).length
            != h.ExcludeNameFilters.length) = true
      · rw [if_pos c2]
        obtain ⟨p, hp, hpi⟩ := he.1 c2
        constructor
        · intro hx
          cases hx
        · rintro ⟨r, t, hrt, _, hexc, _⟩
          cases hrt
          exact absurd hpi (hexc p hp)
      · rw [if_neg c2]
        have he1 : ∀ p ∈ h.ExcludeNameFilters, ¬ p <:+: img := by
          intro p hp hpi
          exact c2 (he.2 ⟨p, hp, hpi⟩)
        cases hg : h.rh.GetImageDate c with
        | none =>
          simp
        | some d =>
          cases d with
          | none =>
            refine ⟨fun _ => ⟨img, tag, rfl, hi1, he1, Or.inl rfl⟩, fun _ => rfl⟩
          | some created =>
            simp only [After]
            by_cases c3 : h.threshold now < created
            · simp only [c3, decide_True, if_true]
              constructor
              · intro hx
                cases hx
              · rintro ⟨r, t, _, _, _, hage⟩
                rcases hage with h0 | ⟨t, ht, hlt⟩
                · cases h0
                · simp only [Option.some.injEq] at ht
                  subst ht
                  exact absurd c3 hlt
            · simp only [c3, decide_False, Bool.false_eq_true, if_false, true_iff]
              exact ⟨img, tag, rfl, hi1, he1, Or.inr ⟨created, rfl, c3⟩⟩

theorem FilterImages_eq_some (h : filterHelper) (now : Int) (images : List Str)
    (result : List Str × Int) (hr : h.FilterImages now images = some result) :
    (∀ c ∈ images, (h.rh.splitImageTag c).isSome = true) ∧
    result.1 = images.filter (fun c => h.verdict now c == some Verdict.kept) := by
  have hall : ∀ c ∈ images, (h.rh.splitImageTag c).isSome = true := by
    intro c hc
    cases hs : h.rh.splitImageTag c with
    | some it => rfl
    | none =>
      rw [FilterImages_none h now images c hc hs] at hr
      cases hr
  refine ⟨hall, ?_⟩
  rw [FilterImages_some h now images hall] at hr
  cases hr
  rfl

/-- C2 (as amended): for every candidate list in which each candidate, its
registry prefix trimmed, contains a colon, and for every include list, exclude
list, `MinAge`, current time and metadata lookup, `FilterImages` returns, in
input order, exactly the candidates that satisfy `EligibleForDeletion` (the
input filtered by it), together with the number of candidates removed. -/
theorem FilterImages_returns_eligible (h : filterHelper) (now : Int) (images : List Str)
    (hform : ∀ c ∈ images, ':' ∈ TrimPrefix c (h.rh.RegPrefix ++ ['/'])) :
    ∃ keep : Str → Bool,
      (∀ c, keep c = true ↔ EligibleForDeletion h now c) ∧
      h.FilterImages now images =
        some (images.filter keep,
          (images.length : Int) - ((images.filter keep).length : Int)) := by
  refine ⟨fun c => h.verdict now c == some Verdict.kept, ?_, ?_⟩
  · intro c
    rw [beq_iff_eq]
    exact verdict_kept_iff h now c
  · apply FilterImages_some
    intro c hc
    exact (splitImageTag_isSome_iff h.rh c).2 (hform c hc)

/-- C2 (witness): the amended claim at the candidates `reg.io/app:v1` and
`reg.io/old:v0`, the exclude list `["old"]` and failing lookups. -/
theorem FilterImages_returns_eligible_witness :
    (∀ c ∈ ["reg.io/app:v1".toList, "reg.io/old:v0".toList],
      ':' ∈ TrimPrefix c ((sampleFilter sampleRegistry ["old".toList] []).rh.RegPrefix ++ ['/'])) ∧
    ∃ keep : Str → Bool,
      (∀ c, keep c = true ↔
        EligibleForDeletion (sampleFilter sampleRegistry ["old".toList] []) 0 c) ∧
      (sampleFilter sampleRegistry ["old".toList] []).FilterImages 0
          ["reg.io/app:v1".toList, "reg.io/old:v0".toList] =
        some (["reg.io/app:v1".toList, "reg.io/old:v0".toList].filter keep,
          ((["reg.io/app:v1".toList, "reg.io/old:v0".toList].length : Nat) : Int) -
            ((["reg.io/app:v1".toList, "reg.io/old:v0".toList].filter keep).length : Int)) :=
  ⟨by decide,
   FilterImages_returns_eligible (sampleFilter sampleRegistry ["old".toList] []) 0
     ["reg.io/app:v1".toList, "reg.io/old:v0".toList] (by decide)⟩

/-- C2 (counterexample): on the candidate list `["reg.io/app"]`, whose only
element has no colon, `FilterImages` panics in `splitImageTag` and returns
nothing, with empty pattern lists and a failing lookup. -/
theorem FilterImages_colonless_candidate :
    (sampleFilter sampleRegistry [] []).FilterImages 0 ["reg.io/app".toList] = none := by
  decide

theorem verdict_of_date (h : filterHelper) (now : Int) (c : Str) (created : Int)
    (hI : h.IncludeNameFilters = []) (hE : h.ExcludeNameFilters = [])
    (hlook : h.rh.GetImageDate c = some (some created)) :
    h.verdict now c =
      if h.threshold now < created then some Verdict.min_age else some Verdict.kept := by
  have hs : (h.rh.splitImageTag c).isSome = true := by
    rw [← GetImageDate_isSome_iff, hlook]
    rfl
  unfold filterHelper.verdict
  cases hsp : h.rh.splitImageTag c with
  | none => rw [hsp] at hs; simp at hs
  | some it =>
    obtain ⟨img, tag⟩ := it
    simp [hI, hE, hlook, After]

/-- C3: with empty include and exclude lists and a successful lookup of the
creation time of candidate `c`, and with the boundary `now` minus `MinAge` days
being the instant `time.Now().AddDate(0, 0, -MinAge)` that the code compares
with, whatever the standard library returns for it: when the creation time
equals the boundary, `FilterImages` on `[c]` returns `[c]`, and `c` is in every
list `FilterImages` returns for an input that contains it; when the creation
time is one millisecond later, `FilterImages` on `[c]` returns the empty list
and the count 1, and `c` is in no list `FilterImages` returns. -/
theorem FilterImages_age_boundary (h : filterHelper) (now : Int) (c : Str) (created : Int)
    (hI : h.IncludeNameFilters = []) (hE : h.ExcludeNameFilters = [])
    (hlook : h.rh.GetImageDate c = some (some created)) :
    (created = h.threshold now →
      h.FilterImages now [c] = some ([c], 0) ∧
      ∀ images result, h.FilterImages now images = some result → c ∈ images → c ∈ result.1) ∧
    (created = h.threshold now + nsPerMillisecond →
      h.FilterImages now [c] = some ([], 1) ∧
      ∀ images result, h.FilterImages now images = some result → c ∉ result.1) := by
  have hv := verdict_of_date h now c created hI hE hlook
  have hs : ∀ x ∈ [c], (h.rh.splitImageTag x).isSome = true := by
    intro x hx
    rw [List.mem_singleton] at hx
    rw [hx, ← GetImageDate_isSome_iff, hlook]
    rfl
  constructor
  · intro hc
    have hk : h.verdict now c = some Verdict.kept := by
      rw [hv, if_neg]
      rw [hc]
      exact lt_irrefl _
    refine ⟨?_, ?_⟩
    · rw [FilterImages_some h now [c] hs]
      simp [List.filter_cons, hk]
    · intro images result hr hmem
      rw [(FilterImages_eq_some h now images result hr).2, List.mem_filter]
      exact ⟨hmem, by simp [hk]⟩
  · intro hc
    have hk : h.verdict now c = some Verdict.min_age := by
      rw [hv, if_pos]
      rw [hc]
      simp [nsPerMillisecond]
    refine ⟨?_, ?_⟩
    · rw [FilterImages_some h now [c] hs]
      simp [List.filter_cons, hk]
    · intro images result hr hmem
      rw [(FilterImages_eq_some h now images result hr).2, List.mem_filter] at hmem
      simp [hk] at hmem

/-- C3 (witness): at `now = 0` and `MinAge = 30`, in a location without clock
changes the image `reg.io/app:v1` created exactly 30 days of 24 hours before is
returned, and the same image created one millisecond later is removed; in a
location whose clocks went forward in between, the boundary is one hour later,
and the image created exactly then is returned and one millisecond later
removed. -/
theorem FilterImages_age_boundary_witness :
    ((sampleFilter (datedRegistry (-30 * nsPerDay)) [] []).FilterImages 0
        ["reg.io/app:v1".toList] = some (["reg.io/app:v1".toList], 0) ∧
      (sampleFilter (datedRegistry (-30 * nsPerDay + nsPerMillisecond)) [] []).FilterImages 0
        ["reg.io/app:v1".toList] = some ([], 1)) ∧
    ((clockChangeFilter (datedRegistry (-30 * nsPerDay + 3600000000000))).FilterImages 0
        ["reg.io/app:v1".toList] = some (["reg.io/app:v1".toList], 0) ∧
      (clockChangeFilter
          (datedRegistry (-30 * nsPerDay + 3600000000000 + nsPerMillisecond))).FilterImages 0
        ["reg.io/app:v1".toList] = some ([], 1)) :=
  ⟨⟨((FilterImages_age_boundary (sampleFilter (datedRegistry (-30 * nsPerDay)) [] []) 0
      "reg.io/app:v1".toList (-30 * nsPerDay) rfl rfl (by decide)).1 (by decide)).1,
    ((FilterImages_age_boundary
      (sampleFilter (datedRegistry (-30 * nsPerDay + nsPerMillisecond)) [] []) 0
      "reg.io/app:v1".toList (-30 * nsPerDay + nsPerMillisecond) rfl rfl (by decide)).2
        (by decide)).1⟩,
   ⟨((FilterImages_age_boundary
      (clockChangeFilter (datedRegistry (-30 * nsPerDay + 3600000000000))) 0
      "reg.io/app:v1".toList (-30 * nsPerDay + 3600000000000) rfl rfl (by decide)).1
        (by decide)).1,
    ((FilterImages_age_boundary
      (clockChangeFilter (datedRegistry (-30 * nsPerDay + 3600000000000 + nsPerMillisecond))) 0
      "reg.io/app:v1".toList (-30 * nsPerDay + 3600000000000 + nsPerMillisecond) rfl rfl
        (by decide)).2 (by decide)).1⟩⟩

theorem verdict_kept_addExclude (h : filterHelper) (now : Int) (p c : Str)
    (hk : (h.addExclude p).verdict now c = some Verdict.kept) :
    h.verdict now c = some Verdict.kept := by
  rw [verdict_kept_iff] at hk ⊢
  obtain ⟨r, tag, hs, hi, he, ha⟩ := hk
  refine ⟨r, tag, hs, hi, ?_, ha⟩
  intro q hq
  exact he q (List.mem_append_left _ hq)

theorem verdict_kept_addInclude (h : filterHelper) (now : Int) (p c : Str)
    (hne : h.IncludeNameFilters ≠ [])
    (hk : h.verdict now c = some Verdict.kept) :
    (h.addInclude p).verdict now c = some Verdict.kept := by
  rw [verdict_kept_iff] at hk ⊢
  obtain ⟨r, tag, hs, hi, he, ha⟩ := hk
  refine ⟨r, tag, hs, ?_, he, ha⟩
  rcases hi with h0 | ⟨q, hq, hqi⟩
  · exact absurd h0 hne
  · exact Or.inr ⟨q, List.mem_append_left _ hq, hqi⟩

theorem filter_sublist_of_imp (l : List Str) (f g : Str → Bool)
    (hfg : ∀ x, f x = true → g x = true) : (l.filter f).Sublist (l.filter g) := by
  induction l with
  | nil => simp
  | cons x xs ih =>
    by_cases hf : f x = true
    · have hg := hfg x hf
      simp only [List.filter_cons, hf, hg, if_true]
      exact ih.cons₂ x
    · by_cases hg : g x = true
      · simp only [List.filter_cons, hf, hg, if_true]
        exact ih.cons x
      · simp only [List.filter_cons, hf, hg]
        exact ih

/-- C4: with the candidates, include list, `MinAge`, current time and lookup
fixed, `FilterImages` with the exclude list `E` plus `p` returns exactly when
`FilterImages` with `E` returns, and then the list it returns is a sublist of
the list returned with `E`: every image returned with `E` plus `p` is also
returned with `E`. -/
theorem FilterImages_exclude_monotone (h : filterHelper) (now : Int) (images : List Str)
    (p : Str) :
    ((h.addExclude p).FilterImages now images).isSome = (h.FilterImages now images).isSome ∧
    ∀ r1, (h.addExclude p).FilterImages now images = some r1 →
      ∃ r2, h.FilterImages now images = some r2 ∧
        r1.1.Sublist r2.1 ∧ ∀ x ∈ r1.1, x ∈ r2.1 := by
  have key : ∀ r1, (h.addExclude p).FilterImages now images = some r1 →
      ∃ r2, h.FilterImages now images = some r2 ∧
        r1.1.Sublist r2.1 ∧ ∀ x ∈ r1.1, x ∈ r2.1 := by
    intro r1 hr1
    obtain ⟨hall, hres⟩ := FilterImages_eq_some _ now images r1 hr1
    have hall2 : ∀ c ∈ images, (h.rh.splitImageTag c).isSome = true := hall
    refine ⟨_, FilterImages_some h now images hall2, ?_⟩
    have hsub : r1.1.Sublist
        (images.filter (fun c => h.verdict now c == some Verdict.kept)) := by
      rw [hres]
      apply filter_sublist_of_imp
      intro x hx
      rw [beq_iff_eq] at hx ⊢
      exact verdict_kept_addExclude h now p x hx
    exact ⟨hsub, fun x hx => hsub.subset hx⟩
  refine ⟨?_, key⟩
  cases h1 : (h.addExclude p).FilterImages now images with
  | some r1 =>
    obtain ⟨r2, hr2, _⟩ := key r1 h1
    rw [hr2]
    rfl
  | none =>
    cases h2 : h.FilterImages now images with
    | none => rfl
    | some r2 =>
      obtain ⟨hall, _⟩ := FilterImages_eq_some h now images r2 h2
      have hall2 : ∀ c ∈ images, ((h.addExclude p).rh.splitImageTag c).isSome = true := hall
      rw [FilterImages_some _ now images hall2] at h1
      cases h1

/-- C4 (witness): adding the exclude pattern `old` to an empty exclude list
removes `reg.io/old:v0` from the list returned for two candidates. -/
theorem FilterImages_exclude_monotone_witness :
    (((sampleFilter sampleRegistry [] []).addExclude "old".toList).FilterImages 0
        ["reg.io/app:v1".toList, "reg.io/old:v0".toList]
      = some (["reg.io/app:v1".toList], 1)) ∧
    ∃ r2, (sampleFilter sampleRegistry [] []).FilterImages 0
        ["reg.io/app:v1".toList, "reg.io/old:v0".toList] = some r2 ∧
      (["reg.io/app:v1".toList], (1 : Int)).1.Sublist r2.1 ∧
      ∀ x ∈ (["reg.io/app:v1".toList], (1 : Int)).1, x ∈ r2.1 :=
  ⟨by decide,
   (FilterImages_exclude_monotone (sampleFilter sampleRegistry [] []) 0
      ["reg.io/app:v1".toList, "reg.io/old:v0".toList] "old".toList).2
      (["reg.io/app:v1".toList], 1) (by decide)⟩

/-- C5 (as amended): with the candidates, exclude list, `MinAge`, current time
and lookup fixed, for every NON-EMPTY include list `I` and pattern `p`,
`FilterImages` with `I` plus `p` returns exactly when `FilterImages` with `I`
returns, and the list returned with `I` is a sublist of the list returned with
`I` plus `p`. -/
theorem FilterImages_include_monotone (h : filterHelper) (now : Int) (images : List Str)
    (p : Str) (hne : h.IncludeNameFilters ≠ []) :
    ((h.addInclude p).FilterImages now images).isSome = (h.FilterImages now images).isSome ∧
    ∀ r1, h.FilterImages now images = some r1 →
      ∃ r2, (h.addInclude p).FilterImages now images = some r2 ∧
        r1.1.Sublist r2.1 ∧ ∀ x ∈ r1.1, x ∈ r2.1 := by
  have key : ∀ r1, h.FilterImages now images = some r1 →
      ∃ r2, (h.addInclude p).FilterImages now images = some r2 ∧
        r1.1.Sublist r2.1 ∧ ∀ x ∈ r1.1, x ∈ r2.1 := by
    intro r1 hr1
    obtain ⟨hall, hres⟩ := FilterImages_eq_some _ now images r1 hr1
    have hall2 : ∀ c ∈ images, ((h.addInclude p).rh.splitImageTag c).isSome = true := hall
    refine ⟨_, FilterImages_some _ now images hall2, ?_⟩
    have hsub : r1.1.Sublist
        (images.filter (fun c => (h.addInclude p).verdict now c == some Verdict.kept)) := by
      rw [hres]
      apply filter_sublist_of_imp
      intro x hx
      rw [beq_iff_eq] at hx ⊢
      exact verdict_kept_addInclude h now p x hne hx
    exact ⟨hsub, fun x hx => hsub.subset hx⟩
  refine ⟨?_, key⟩
  cases h1 : h.FilterImages now images with
  | some r1 =>
    obtain ⟨r2, hr2, _⟩ := key r1 h1
    rw [hr2]
    rfl
  | none =>
    cases h2 : (h.addInclude p).FilterImages now images with
    | none => rfl
    | some r2 =>
      obtain ⟨hall, _⟩ := FilterImages_eq_some _ now images r2 h2
      have hall2 : ∀ c ∈ images, (h.rh.splitImageTag c).isSome = true := hall
      rw [FilterImages_some _ now images hall2] at h1
      cases h1

/-- C5 (witness): with the include list `["old"]`, adding the pattern `app`
keeps `reg.io/old:v0` in the returned list. -/
theorem FilterImages_include_monotone_witness :
    (sampleFilter sampleRegistry [] ["old".toList]).IncludeNameFilters ≠ [] ∧
    ((sampleFilter sampleRegistry [] ["old".toList]).FilterImages 0
        ["reg.io/app:v1".toList, "reg.io/old:v0".toList]
      = some (["reg.io/old:v0".toList], 1)) ∧
    ∃ r2, ((sampleFilter sampleRegistry [] ["old".toList]).addInclude "app".toList).FilterImages 0
        ["reg.io/app:v1".toList, "reg.io/old:v0".toList] = some r2 ∧
      (["reg.io/old:v0".toList], (1 : Int)).1.Sublist r2.1 ∧
      ∀ x ∈ (["reg.io/old:v0".toList], (1 : Int)).1, x ∈ r2.1 :=
  ⟨by decide, by decide,
   (FilterImages_include_monotone (sampleFilter sampleRegistry [] ["old".toList]) 0
      ["reg.io/app:v1".toList, "reg.io/old:v0".toList] "app".toList (by decide)).2
      (["reg.io/old:v0".toList], 1) (by decide)⟩

/-- C5 (counterexample): with the EMPTY include list the candidate
`reg.io/app:v1` is returned, and after the pattern `zzz` is added to the
include list it is no longer returned: adding a pattern to an empty include
list shrinks the deletion list. -/
theorem FilterImages_include_empty_shrinks :
    (sampleFilter sampleRegistry [] []).IncludeNameFilters = [] ∧
    (sampleFilter sampleRegistry [] []).FilterImages 0 ["reg.io/app:v1".toList]
      = some (["reg.io/app:v1".toList], 0) ∧
    ((sampleFilter sampleRegistry [] []).addInclude "zzz".toList).FilterImages 0
      ["reg.io/app:v1".toList] = some ([], 1) := by
  decide

/-! ## Image reference parsing -/

theorem Split_head (s : Str) (sep : Char) :
    ∃ rest, Split s sep = s.takeWhile (fun c => !(c == sep)) :: rest := by
  induction s with
  | nil => exact ⟨[], by simp [Split]⟩
  | cons c cs ih =>
    obtain ⟨rest, hr⟩ := ih
    by_cases hc : c = sep
    · exact ⟨Split cs sep, by simp [Split, hc]⟩
    · exact ⟨rest, by simp [Split, hc, hr, List.takeWhile_cons]⟩

theorem cleanImageNames_foldl (images : List Str) (acc : List Str) :
    images.foldl
      (fun acc img =>
        match acc, Split img '@' with
        | some imgs, first :: _ => some (imgs ++ [first])
        | _, _ => none)
      (some acc)
    = some (acc ++ images.map (fun img => img.takeWhile (fun c => !(c == '@')))) := by
  induction images generalizing acc with
  | nil => simp
  | cons x xs ih =>
    obtain ⟨rest, hr⟩ := Split_head x '@'
    simp only [List.foldl_cons, hr, ih, List.map_cons]
    simp

theorem cleanImageNames_eq (images : List Str) :
    cleanImageNames images =
      some (images.map (fun img => img.takeWhile (fun c => !(c == '@')))) := by
  have h := cleanImageNames_foldl images []
  simpa [cleanImageNames] using h

theorem takeWhile_not_sep_not_mem (s : Str) (sep : Char) :
    sep ∉ s.takeWhile (fun c => !(c == sep)) := by
  intro hm
  have h := List.mem_takeWhile_imp hm
  simp at h

theorem takeWhile_append_sep (s d : Str) (sep : Char) (h : sep ∉ s) :
    (s ++ sep :: d).takeWhile (fun c => !(c == sep)) = s := by
  induction s with
  | nil => simp [List.takeWhile_cons]
  | cons c cs ih =>
    simp only [List.mem_cons, not_or] at h
    have hc : ¬ c = sep := fun e => h.1 e.symm
    simp [List.takeWhile_cons, hc, ih h.2]

theorem takeWhile_of_not_mem (s : Str) (sep : Char) (h : sep ∉ s) :
    s.takeWhile (fun c => !(c == sep)) = s := by
  induction s with
  | nil => simp
  | cons c cs ih =>
    simp only [List.mem_cons, not_or] at h
    have hc : ¬ c = sep := fun e => h.1 e.symm
    simp [List.takeWhile_cons, hc, ih h.2]

/-- C6: `cleanImageNames` returns for every input a list of the same length in
which no element contains `@`; and for every `s` without `@` and every `d`,
where the input holds `s@d` or `s` at position `i` the output holds `s` at
position `i`, so two references that differ only by a digest suffix are mapped
to the same string. -/
theorem cleanImageNames_strips_digest (images : List Str) :
    ∃ out, cleanImageNames images = some out ∧
      out.length = images.length ∧
      (∀ x ∈ out, '@' ∉ x) ∧
      ∀ (i : Nat) (s d : Str), '@' ∉ s →
        (images[i]? = some (s ++ '@' :: d) ∨ images[i]? = some s) → out[i]? = some s := by
  refine ⟨_, cleanImageNames_eq images, by simp, ?_, ?_⟩
  · intro x hx
    rw [List.mem_map] at hx
    obtain ⟨img, _, himg⟩ := hx
    rw [← himg]
    exact takeWhile_not_sep_not_mem img '@'
  · intro i s d hs hi
    rw [List.getElem?_map]
    rcases hi with hi | hi
    · rw [hi]
      simp only [Option.map_some']
      rw [takeWhile_append_sep s d '@' hs]
    · rw [hi]
      simp only [Option.map_some']
      rw [takeWhile_of_not_mem s '@' hs]

/-- C6 (witness): `host/repo:tag@sha256:abc` and `host/repo:tag` are both
mapped to `host/repo:tag`. -/
theorem cleanImageNames_strips_digest_witness :
    '@' ∉ "host/repo:tag".toList ∧
    ∃ out, cleanImageNames ["host/repo:tag@sha256:abc".toList, "host/repo:tag".toList] = some out ∧
      out[0]? = some "host/repo:tag".toList ∧ out[1]? = some "host/repo:tag".toList := by
  obtain ⟨out, hout, _, _, hpos⟩ :=
    cleanImageNames_strips_digest ["host/repo:tag@sha256:abc".toList, "host/repo:tag".toList]
  exact ⟨by decide, out, hout,
    hpos 0 "host/repo:tag".toList "sha256:abc".toList (by decide) (Or.inl (by decide)),
    hpos 1 "host/repo:tag".toList "sha256:abc".toList (by decide) (Or.inr (by decide))⟩

/-- C7 (as amended): for every image string `RegPrefix/repo:tag`, where
`RegPrefix` is the registry host of the helper (which may be `host:port`), and
`repo` (which may contain `/`) and `tag` contain no colon, `splitImageTag`
returns the pair `(repo, tag)`; the port of the registry prefix is never
returned as the tag. -/
theorem splitImageTag_registry_reference (h : regHelper) (repo tag : Str)
    (hrepo : ':' ∉ repo) (htag : ':' ∉ tag) :
    h.splitImageTag (h.RegPrefix ++ '/' :: (repo ++ ':' :: tag)) = some (repo, tag) := by
  have e : h.RegPrefix ++ '/' :: (repo ++ ':' :: tag)
      = (h.RegPrefix ++ ['/']) ++ (repo ++ ':' :: tag) := by simp
  unfold regHelper.splitImageTag
  rw [e, TrimPrefix_append, Split_append_sep repo tag ':' hrepo, Split_of_not_mem tag ':' htag]

/-- C7 (witness): with the registry prefix `localhost:5000`, the reference
`localhost:5000/team/app:v1` is split into `team/app` and `v1`. -/
theorem splitImageTag_registry_reference_witness :
    ':' ∉ "team/app".toList ∧ ':' ∉ "v1".toList ∧
    portRegistry.splitImageTag
        (portRegistry.RegPrefix ++ '/' :: ("team/app".toList ++ ':' :: "v1".toList))
      = some ("team/app".toList, "v1".toList) :=
  ⟨by decide, by decide,
   splitImageTag_registry_reference portRegistry "team/app".toList "v1".toList
     (by decide) (by decide)⟩

/-- C7 (counterexample): with the registry prefix `reg.io`, the reference
`reg.io/app`, which has no colon after its last slash, makes `splitImageTag`
panic instead of returning an empty tag; and for the reference
`other.io:5000/team/app:v1`, whose host is not the registry prefix, the text
after the port colon, `5000/team/app`, is returned as the tag. -/
theorem splitImageTag_not_last_colon :
    sampleRegistry.splitImageTag "reg.io/app".toList = none ∧
    sampleRegistry.splitImageTag "other.io:5000/team/app:v1".toList
      = some ("other.io".toList, "5000/team/app".toList) := by
  decide

/-! ## Deleting an image -/

/-- C10: for an image that `splitImageTag` splits into `img` and `tag` and
whose digest the registry resolves: with `dryRun` set `DeleteImage` returns a
nil error and sends no `DeleteManifest` request; with `dryRun` unset it sends
exactly one `DeleteManifest` request, for `img` and the resolved digest, and
returns nil exactly when that request succeeds. -/
theorem DeleteImage_dry_run (h : regHelper) (image img tag : Str) (digest : Digest)
    (hs : h.splitImageTag image = some (img, tag))
    (hd : h.ManifestDigest img tag = some digest) :
    (h.dryRun = true →
      h.DeleteImage image = some { err := none, deleteCalls := [] }) ∧
    (h.dryRun = false →
      h.DeleteImage image = some
        { err := if h.DeleteManifest img digest then none else some DeleteError.deleteManifest
          deleteCalls := [(img, digest)] }) := by
  constructor
  · intro hdry
    simp [regHelper.DeleteImage, hs, hd, hdry]
  · intro hdry
    by_cases hdel : h.DeleteManifest img digest = true
    · simp [regHelper.DeleteImage, hs, hd, hdry, hdel]
    · simp [regHelper.DeleteImage, hs, hd, hdry, hdel]

/-- C10 (witness): for `reg.io/app:v1` with digest `sha256:abc`, the dry run
sends nothing and the real run sends one request for `app` and that digest. -/
theorem DeleteImage_dry_run_witness :
    dryRunRegistry.DeleteImage "reg.io/app:v1".toList
      = some { err := none, deleteCalls := [] } ∧
    sampleRegistry.DeleteImage "reg.io/app:v1".toList
      = some { err := if sampleRegistry.DeleteManifest "app".toList "sha256:abc".toList
                 then none else some DeleteError.deleteManifest
               deleteCalls := [("app".toList, "sha256:abc".toList)] } :=
  ⟨(DeleteImage_dry_run dryRunRegistry "reg.io/app:v1".toList "app".toList "v1".toList
      "sha256:abc".toList (by decide) (by decide)).1 (by decide),
   (DeleteImage_dry_run sampleRegistry "reg.io/app:v1".toList "app".toList "v1".toList
      "sha256:abc".toList (by decide) (by decide)).2 (by decide)⟩

/-! ## The disk cache -/

theorem Split_append (a b : Str) (sep : Char) :
    Split (a ++ sep :: b) sep = Split a sep ++ Split b sep := by
  induction a with
  | nil => simp [Split]
  | cons c cs ih =>
    by_cases hc : c = sep
    · simp [Split, hc, ih]
    · cases hsp : Split cs sep with
      | nil => exact absurd hsp (Split_ne_nil cs sep)
      | cons piece rest =>
        rw [hsp] at ih
        simp [Split, hc, ih, hsp]

theorem Split_elems_no_sep (s : Str) (sep : Char) : ∀ x ∈ Split s sep, sep ∉ x := by
  induction s with
  | nil => simp [Split]
  | cons c cs ih =>
    by_cases hc : c = sep
    · intro x hx
      simp only [Split, hc, if_true, List.mem_cons] at hx
      rcases hx with hx | hx
      · rw [hx]
        simp
      · exact ih x hx
    · cases hsp : Split cs sep with
      | nil => exact absurd hsp (Split_ne_nil cs sep)
      | cons piece rest =>
        rw [hsp] at ih
        intro x hx
        simp only [Split, hc, if_false, hsp, List.mem_cons] at hx
        rcases hx with hx | hx
        · rw [hx]
          simp only [List.mem_cons, not_or]
          exact ⟨fun e => hc e.symm, ih piece (List.mem_cons_self _ _)⟩
        · exact ih x (List.mem_cons_of_mem _ hx)

theorem joinSlash_Split (s : Str) : joinSlash (Split s '/') = s := by
  induction s with
  | nil => simp [Split, joinSlash]
  | cons c cs ih =>
    cases hsp : Split cs '/' with
    | nil => exact absurd hsp (Split_ne_nil cs '/')
    | cons piece rest =>
      rw [hsp] at ih
      by_cases hc : c = '/'
      · simp [Split, hc, hsp, joinSlash, ih]
      · cases rest with
        | nil =>
          simp only [joinSlash] at ih
          simp [Split, hc, hsp, joinSlash, ih]
        | cons y r =>
          simp only [joinSlash] at ih
          simp [Split, hc, hsp, joinSlash, ih]

theorem Split_joinSlash (L : List Str) (hne : L ≠ []) (hL : ∀ x ∈ L, '/' ∉ x) :
    Split (joinSlash L) '/' = L := by
  induction L with
  | nil => exact absurd rfl hne
  | cons x rest ih =>
    have hx : '/' ∉ x := hL x (List.mem_cons_self _ _)
    cases rest with
    | nil => simp [joinSlash, Split_of_not_mem x '/' hx]
    | cons y r =>
      have ih2 := ih (by simp) (fun z hz => hL z (List.mem_cons_of_mem _ hz))
      simp only [joinSlash]
      rw [Split_append_sep x _ '/' hx, ih2]

theorem joinSlash_eq_nil (L : List Str) (h : joinSlash L = []) : L = [] ∨ L = [[]] := by
  cases L with
  | nil => exact Or.inl rfl
  | cons x rest =>
    cases rest with
    | nil =>
      simp only [joinSlash] at h
      exact Or.inr (by rw [h])
    | cons y r =>
      simp [joinSlash] at h

theorem cleanElems_cons (rooted : Bool) (out : List Str) (elem : Str) (rest : List Str) :
    cleanElems rooted out (elem :: rest) =
      if elem = [] ∨ elem = ['.'] then cleanElems rooted out rest
      else if elem = ['.', '.'] then
        match out with
        | top :: below =>
          if top = ['.', '.'] then cleanElems rooted (elem :: out) rest
          else cleanElems rooted below rest
        | [] =>
          if rooted then cleanElems rooted [] rest
          else cleanElems rooted [elem] rest
      else cleanElems rooted (elem :: out) rest := by
  cases out <;> rfl

theorem cleanElems_normal (rooted : Bool) (out K : List Str)
    (hK : ∀ x ∈ K, x ≠ [] ∧ x ≠ ['.'] ∧ x ≠ ['.', '.']) :
    cleanElems rooted out K = out.reverse ++ K := by
  induction K generalizing out with
  | nil => simp [cleanElems]
  | cons elem rest ih =>
    obtain ⟨h1, h2, h3⟩ := hK elem (List.mem_cons_self _ _)
    have hrest := fun x hx => hK x (List.mem_cons_of_mem elem hx)
    rw [cleanElems_cons, if_neg (by simp [h1, h2]), if_neg h3, ih _ hrest]
    simp

theorem cleanElems_append (rooted : Bool) (A out : List Str) :
    ∃ S : List Str, (∀ x ∈ S, x ∈ out ∨ x ∈ A) ∧
      ∀ K : List Str, (∀ x ∈ K, x ≠ [] ∧ x ≠ ['.'] ∧ x ≠ ['.', '.']) →
        cleanElems rooted out (A ++ K) = S ++ K := by
  induction A generalizing out with
  | nil =>
    refine ⟨out.reverse, ?_, ?_⟩
    · intro x hx
      exact Or.inl (List.mem_reverse.mp hx)
    · intro K hK
      simpa using cleanElems_normal rooted out K hK
  | cons elem rest ih =>
    have step : ∃ out2 : List Str, (∀ x ∈ out2, x ∈ out ∨ x = elem) ∧
        ∀ K : List Str, cleanElems rooted out (elem :: rest ++ K)
          = cleanElems rooted out2 (rest ++ K) := by
      by_cases h1 : elem = [] ∨ elem = ['.']
      · exact ⟨out, fun x hx => Or.inl hx, fun K => by
          rw [List.cons_append, cleanElems_cons, if_pos h1]⟩
      · by_cases h2 : elem = ['.', '.']
        · cases out with
          | nil =>
            cases rooted with
            | true =>
              exact ⟨[], fun x hx => Or.inl hx, fun K => by
                rw [List.cons_append, cleanElems_cons, if_neg h1, if_pos h2]
                simp⟩
            | false =>
              refine ⟨[elem], ?_, fun K => by
                rw [List.cons_append, cleanElems_cons, if_neg h1, if_pos h2]
                simp⟩
              intro x hx
              exact Or.inr (List.mem_singleton.mp hx)
          | cons top below =>
            by_cases h3 : top = ['.', '.']
            · refine ⟨elem :: top :: below, ?_, fun K => by
                rw [List.cons_append, cleanElems_cons, if_neg h1, if_pos h2]
                simp [h3]⟩
              intro x hx
              rcases List.mem_cons.mp hx with hx | hx
              · exact Or.inr hx
              · exact Or.inl hx
            · refine ⟨below, ?_, fun K => by
                rw [List.cons_append, cleanElems_cons, if_neg h1, if_pos h2]
                simp [h3]⟩
              intro x hx
              exact Or.inl (List.mem_cons_of_mem _ hx)
        · refine ⟨elem :: out, ?_, fun K => by
            rw [List.cons_append, cleanElems_cons, if_neg h1, if_neg h2]⟩
          intro x hx
          rcases List.mem_cons.mp hx with hx | hx
          · exact Or.inr hx
          · exact Or.inl hx
    obtain ⟨out2, hout2, hstep⟩ := step
    obtain ⟨S, hS, hSK⟩ := ih out2
    refine ⟨S, ?_, ?_⟩
    · intro x hx
      rcases hS x hx with h | h
      · rcases hout2 x h with h | h
        · exact Or.inl h
        · exact Or.inr (by rw [h]; exact List.mem_cons_self _ _)
      · exact Or.inr (List.mem_cons_of_mem _ h)
    · intro K hK
      rw [hstep K, hSK K hK]

theorem pathClean_join_normal (base : Str) (hb : base ≠ []) :
    ∃ S : List Str, (∀ x ∈ S, '/' ∉ x) ∧
      ∀ k2 : Str, NormalKey k2 →
        joinSlash (S ++ Split k2 '/') ≠ [] ∧
        pathClean (base ++ '/' :: k2) =
          if base.head? = some '/' then '/' :: joinSlash (S ++ Split k2 '/')
          else joinSlash (S ++ Split k2 '/') := by
  obtain ⟨S, hS, hSK⟩ := cleanElems_append (decide (base.head? = some '/')) (Split base '/') []
  refine ⟨S, ?_, ?_⟩
  · intro x hx
    rcases hS x hx with h | h
    · simp at h
    · exact Split_elems_no_sep base '/' x h
  · intro k2 hk2
    have hne : joinSlash (S ++ Split k2 '/') ≠ [] := by
      intro h0
      cases hsp : Split k2 '/' with
      | nil => exact absurd hsp (Split_ne_nil k2 '/')
      | cons e es =>
        have he := (hk2 e (by rw [hsp]; exact List.mem_cons_self _ _)).1
        rw [hsp] at h0
        rcases joinSlash_eq_nil _ h0 with h1 | h1
        · simp at h1
        · have hmem : e ∈ S ++ e :: es := by simp
          rw [h1] at hmem
          exact he (List.mem_singleton.mp hmem)
    refine ⟨hne, ?_⟩
    have hp : base ++ '/' :: k2 ≠ [] := by simp
    have hhead : (base ++ '/' :: k2).head? = base.head? := by
      cases base with
      | nil => exact absurd rfl hb
      | cons c cs => rfl
    unfold pathClean
    rw [if_neg hp]
    simp only [hhead, Split_append, hSK (Split k2 '/') hk2]
    by_cases hr : base.head? = some '/'
    · simp [hr]
    · simp [hr, hne]

theorem pathJoin_injective (base k1 k2 : Str) (hb : base ≠ [])
    (h1 : NormalKey k1) (h2 : NormalKey k2) (h : pathJoin base k1 = pathJoin base k2) :
    k1 = k2 := by
  obtain ⟨S, hS, hSK⟩ := pathClean_join_normal base hb
  obtain ⟨hne1, e1⟩ := hSK k1 h1
  obtain ⟨hne2, e2⟩ := hSK k2 h2
  have hj : ∀ k : Str, pathJoin base k = pathClean (base ++ '/' :: k) := by
    intro k
    unfold pathJoin
    rw [if_neg (fun hx => hb hx.1), if_neg hb]
  rw [hj k1, hj k2, e1, e2] at h
  have hbody : joinSlash (S ++ Split k1 '/') = joinSlash (S ++ Split k2 '/') := by
    by_cases hr : base.head? = some '/'
    · rw [if_pos hr, if_pos hr] at h
      exact List.tail_eq_of_cons_eq h
    · rw [if_neg hr, if_neg hr] at h
      exact h
  have hfree : ∀ k : Str, ∀ x ∈ S ++ Split k '/', '/' ∉ x := by
    intro k x hx
    rcases List.mem_append.mp hx with hx | hx
    · exact hS x hx
    · exact Split_elems_no_sep k '/' x hx
  have hnn : ∀ k : Str, S ++ Split k '/' ≠ [] := by
    intro k hx
    exact Split_ne_nil k '/' (List.append_eq_nil.mp hx).2
  have hlists : S ++ Split k1 '/' = S ++ Split k2 '/' := by
    rw [← Split_joinSlash _ (hnn k1) (hfree k1), ← Split_joinSlash _ (hnn k2) (hfree k2), hbody]
  have hsplit : Split k1 '/' = Split k2 '/' := List.append_cancel_left hlists
  rw [← joinSlash_Split k1, ← joinSlash_Split k2, hsplit]

theorem keyPath_injective (store : DiskStore) (k1 k2 : Str) (hb : store.baseDir ≠ [])
    (h1 : NormalKey k1) (h2 : NormalKey k2) (h : store.keyPath k1 = store.keyPath k2) :
    k1 = k2 := by
  unfold DiskStore.keyPath at h
  exact pathJoin_injective store.baseDir k1 k2 hb h1 h2 (List.append_cancel_right h)

theorem WriteFile_lockable (fs : FileSystem) (path : Str) (bytes : Bytes) :
    (fs.WriteFile path bytes).2.lockable = fs.lockable := by
  unfold FileSystem.WriteFile
  cases fs.writeOutcome path <;> rfl

theorem WriteFile_files_other (fs : FileSystem) (path other : Str) (bytes : Bytes)
    (hne : path ≠ other) : (fs.WriteFile path bytes).2.files other = fs.files other := by
  have hne2 : ¬ other = path := fun e => hne e.symm
  unfold FileSystem.WriteFile
  cases fs.writeOutcome path <;> simp [FileSystem.setFile, hne2]

theorem TryRLockContext_lockable (fs : FileSystem) (path : Str) :
    (fs.TryRLockContext path).2.lockable = fs.lockable := by
  unfold FileSystem.TryRLockContext
  by_cases hl : fs.lockable path = true
  · cases hf : fs.files path <;> simp [hl, FileSystem.setFile]
  · simp [hl]

theorem TryRLockContext_files_other (fs : FileSystem) (path other : Str)
    (hne : path ≠ other) : (fs.TryRLockContext path).2.files other = fs.files other := by
  have hne2 : ¬ other = path := fun e => hne e.symm
  unfold FileSystem.TryRLockContext
  by_cases hl : fs.lockable path = true
  · cases hf : fs.files path <;> simp [hl, FileSystem.setFile, hne2]
  · simp [hl]

theorem Set_files_other {T : Type} (store : DiskStore) (gob : Gob T) (fs : FileSystem)
    (key : Str) (value : T) (path : Str) (hne : store.keyPath key ≠ path) :
    (store.Set gob fs key value).2.files path = fs.files path := by
  have hlock := TryRLockContext_files_other fs (store.keyPath key) path hne
  simp only [DiskStore.Set]
  cases htry : fs.TryRLockContext (store.keyPath key) with
  | mk ok fs1 =>
    rw [htry] at hlock
    cases ok with
    | false => exact hlock
    | true =>
      cases he : gob.encode value with
      | none => exact hlock
      | some bytes =>
        simp only
        rw [WriteFile_files_other fs1 (store.keyPath key) path bytes hne]
        exact hlock

theorem SetAll_files_other {T : Type} (store : DiskStore) (gob : Gob T) (fs : FileSystem)
    (ops : List (Str × T)) (path : Str)
    (hne : ∀ op ∈ ops, store.keyPath op.1 ≠ path) :
    (store.SetAll gob fs ops).files path = fs.files path := by
  induction ops generalizing fs with
  | nil => rfl
  | cons op rest ih =>
    obtain ⟨key, value⟩ := op
    simp only [DiskStore.SetAll]
    rw [ih _ (fun o ho => hne o (List.mem_cons_of_mem _ ho))]
    exact Set_files_other store gob fs key value path (hne (key, value) (List.mem_cons_self _ _))

/-- C8 (as amended): for every key `k` and value `v` that the gob encoder and
decoder carry back to itself, when the lock on the file of `k` can be obtained
and `os.WriteFile` on that file succeeds, `Set(k, v)` returns a nil error and
`Get(k)` on the resulting files returns the value `v` with a nil error; and for
a store with a base directory, on files that start without a file for the key
`k`, after any sequence of `Set` calls on keys other than `k`, all keys being
in normal form, `Get(k)` returns the untyped nil and the `NotFound` error. -/
theorem DiskStore_round_trip {T : Type} (store : DiskStore) (gob : Gob T) :
    (∀ (fs : FileSystem) (k : Str) (v : T),
      fs.lockable (store.keyPath k) = true →
      fs.writeOutcome (store.keyPath k) = WriteOutcome.written →
      (∃ bytes, gob.encode v = some bytes ∧ gob.decode bytes = some v) →
      (store.Set gob fs k v).1 = none ∧
      (store.Get gob (store.Set gob fs k v).2 k).1 = (GetValue.data v, none)) ∧
    (∀ (fs : FileSystem) (ops : List (Str × T)) (k : Str),
      store.baseDir ≠ [] →
      NormalKey k →
      (∀ op ∈ ops, NormalKey op.1) →
      fs.files (store.keyPath k) = none →
      (∀ op ∈ ops, op.1 ≠ k) →
      (store.Get gob (store.SetAll gob fs ops) k).1 = (GetValue.nil, some StoreError.NotFound)) := by
  constructor
  · rintro fs k v hl hw ⟨bytes, henc, hdec⟩
    have hset : ∃ fs2, store.Set gob fs k v = (none, fs2) ∧
        fs2.files (store.keyPath k) = some bytes ∧ fs2.lockable = fs.lockable := by
      simp only [DiskStore.Set, FileSystem.TryRLockContext, hl, if_true]
      cases hf : fs.files (store.keyPath k) with
      | some old =>
        refine ⟨fs.setFile (store.keyPath k) bytes, ?_, ?_, rfl⟩
        · simp [henc, FileSystem.WriteFile, hw]
        · simp [FileSystem.setFile]
      | none =>
        refine ⟨(fs.setFile (store.keyPath k) []).setFile (store.keyPath k) bytes, ?_, ?_, rfl⟩
        · have hw2 : (fs.setFile (store.keyPath k) []).writeOutcome (store.keyPath k)
              = WriteOutcome.written := hw
          simp [henc, FileSystem.WriteFile, hw2]
        · simp [FileSystem.setFile]
    obtain ⟨fs2, hs, hfile, hlock2⟩ := hset
    rw [hs]
    refine ⟨rfl, ?_⟩
    have hl2 : fs2.lockable (store.keyPath k) = true := by
      rw [hlock2]
      exact hl
    simp [DiskStore.Get, FileSystem.TryRLockContext, hl2, hfile, hdec]
  · intro fs ops k hb hk hops hnone hne
    have hpaths : ∀ op ∈ ops, store.keyPath op.1 ≠ store.keyPath k := by
      intro op hop hpath
      exact hne op hop (keyPath_injective store op.1 k hb (hops op hop) hk hpath)
    have hfile : (store.SetAll gob fs ops).files (store.keyPath k) = none := by
      rw [SetAll_files_other store gob fs ops _ hpaths]
      exact hnone
    unfold DiskStore.Get
    simp [hfile]

/-- C8 (witness): in `./.cache` with no files, where locks and writes succeed,
`Set` of the key `team/app:v1` followed by `Get` returns the value set; and
after that `Set`, `Get` of the key `team/app:v2` returns `NotFound`. -/
theorem DiskStore_round_trip_witness :
    (emptyFiles.lockable (sampleStore.keyPath "team/app:v1".toList) = true ∧
      emptyFiles.writeOutcome (sampleStore.keyPath "team/app:v1".toList)
        = WriteOutcome.written ∧
      (∃ bytes, sampleGob.encode { Created := -5, TotalSize := 10 } = some bytes ∧
        sampleGob.decode bytes = some { Created := -5, TotalSize := 10 }) ∧
      (sampleStore.Set sampleGob emptyFiles "team/app:v1".toList
        { Created := -5, TotalSize := 10 }).1 = none ∧
      (sampleStore.Get sampleGob
        (sampleStore.Set sampleGob emptyFiles "team/app:v1".toList
          { Created := -5, TotalSize := 10 }).2 "team/app:v1".toList).1
        = (GetValue.data { Created := -5, TotalSize := 10 }, none)) ∧
    (sampleStore.baseDir ≠ [] ∧
      NormalKey "team/app:v2".toList ∧
      NormalKey "team/app:v1".toList ∧
      emptyFiles.files (sampleStore.keyPath "team/app:v2".toList) = none ∧
      "team/app:v1".toList ≠ "team/app:v2".toList ∧
      (sampleStore.Get sampleGob
        (sampleStore.SetAll sampleGob emptyFiles
          [("team/app:v1".toList, { Created := -5, TotalSize := 10 })]) "team/app:v2".toList).1
        = (GetValue.nil, some StoreError.NotFound)) :=
  ⟨⟨by decide, by decide, ⟨[1, 5, 10], by decide, by decide⟩,
    (DiskStore_round_trip sampleStore sampleGob).1 emptyFiles "team/app:v1".toList
      { Created := -5, TotalSize := 10 } (by decide) (by decide)
      ⟨[1, 5, 10], by decide, by decide⟩⟩,
   ⟨by decide, by decide, by decide, by decide, by decide,
    (DiskStore_round_trip sampleStore sampleGob).2 emptyFiles
      [("team/app:v1".toList, { Created := -5, TotalSize := 10 })] "team/app:v2".toList
      (by decide) (by decide) (by decide) (by decide) (by decide)⟩⟩

/-- C8 (counterexample): with the lock on the file of `app:v1` obtained and
the file read-only, `Set` of a new value returns the error of `os.WriteFile`
and the following `Get` returns the old value, not the one set; and after a
`Set` on the key `./app:v1`, `Get` of the key `app:v1`, which was never set,
returns that value instead of `NotFound`, because `path.Join` gives both keys
the same file. -/
theorem DiskStore_set_can_fail_with_lock :
    (readOnlyFiles.lockable (sampleStore.keyPath "app:v1".toList) = true ∧
      (sampleStore.Set sampleGob readOnlyFiles "app:v1".toList
        { Created := 7, TotalSize := 1 }).1 = some StoreError.writeFailed ∧
      (sampleStore.Get sampleGob
        (sampleStore.Set sampleGob readOnlyFiles "app:v1".toList
          { Created := 7, TotalSize := 1 }).2 "app:v1".toList).1
        = (GetValue.data { Created := 5, TotalSize := 10 }, none)) ∧
    ("./app:v1".toList ≠ "app:v1".toList ∧
      emptyFiles.files (sampleStore.keyPath "app:v1".toList) = none ∧
      (sampleStore.Get sampleGob
        (sampleStore.SetAll sampleGob emptyFiles
          [("./app:v1".toList, { Created := 7, TotalSize := 1 })]) "app:v1".toList).1
        = (GetValue.data { Created := 7, TotalSize := 1 }, none)) := by
  decide

/-- C9: when the lock on the file of key `k` cannot be obtained: `Get` on a
key whose file exists returns a non-nil error that is not `NotFound` and a
first result that is not a decoded value, and leaves the files as they are;
`Set` returns a non-nil error and leaves the files, the stored bytes of every
key, as they are. -/
theorem DiskStore_lock_failure {T : Type} (store : DiskStore) (gob : Gob T) (fs : FileSystem)
    (k : Str) (hlock : fs.lockable (store.keyPath k) = false) :
    (∀ bytes, fs.files (store.keyPath k) = some bytes →
      (∃ e, (store.Get gob fs k).1.2 = some e ∧ e ≠ StoreError.NotFound) ∧
      (∀ v, (store.Get gob fs k).1.1 ≠ GetValue.data v) ∧
      (store.Get gob fs k).2 = fs) ∧
    (∀ v, (∃ e, (store.Set gob fs k v).1 = some e) ∧ (store.Set gob fs k v).2 = fs) := by
  constructor
  · intro bytes hf
    have hget : store.Get gob fs k
        = ((GetValue.cacheValue, some StoreError.lockFailed), fs) := by
      unfold DiskStore.Get FileSystem.TryRLockContext
      simp [hf, hlock]
    rw [hget]
    refine ⟨⟨StoreError.lockFailed, rfl, by decide⟩, ?_, rfl⟩
    intro v hv
    cases hv
  · intro v
    have hset : store.Set gob fs k v = (some StoreError.lockFailed, fs) := by
      unfold DiskStore.Set FileSystem.TryRLockContext
      simp [hlock]
    rw [hset]
    exact ⟨⟨StoreError.lockFailed, rfl⟩, rfl⟩

/-- C9 (witness): with the file of `app:v1` present and its lock held
elsewhere, `Get` and `Set` on `app:v1` both fail and change no file. -/
theorem DiskStore_lock_failure_witness :
    lockedFiles.lockable (sampleStore.keyPath "app:v1".toList) = false ∧
    lockedFiles.files (sampleStore.keyPath "app:v1".toList) = some [0, 5, 10] ∧
    ((∃ e, (sampleStore.Get sampleGob lockedFiles "app:v1".toList).1.2 = some e ∧
        e ≠ StoreError.NotFound) ∧
      (∀ v, (sampleStore.Get sampleGob lockedFiles "app:v1".toList).1.1 ≠ GetValue.data v) ∧
      (sampleStore.Get sampleGob lockedFiles "app:v1".toList).2 = lockedFiles) ∧
    ((∃ e, (sampleStore.Set sampleGob lockedFiles "app:v1".toList
        { Created := 7, TotalSize := 1 }).1 = some e) ∧
      (sampleStore.Set sampleGob lockedFiles "app:v1".toList
        { Created := 7, TotalSize := 1 }).2 = lockedFiles) :=
  ⟨by decide, by decide,
   (DiskStore_lock_failure sampleStore sampleGob lockedFiles "app:v1".toList (by decide)).1
     [0, 5, 10] (by decide),
   (DiskStore_lock_failure sampleStore sampleGob lockedFiles "app:v1".toList (by decide)).2
     { Created := 7, TotalSize := 1 }⟩

/-! ## The deletion loop -/

theorem DeleteImage_isSome_iff (rh : regHelper) (c : Str) :
    (rh.DeleteImage c).isSome = (rh.splitImageTag c).isSome := by
  unfold regHelper.DeleteImage
  cases hs : rh.splitImageTag c with
  | none => rfl
  | some it =>
    obtain ⟨img, tag⟩ := it
    simp only
    cases rh.ManifestDigest img tag with
    | none => rfl
    | some digest =>
      simp only
      split
      · rfl
      · split <;> rfl

theorem confirmedCandidates_cons_none (yolo : Bool) (YesNo : Nat → Str → Option Bool)
    (i : Nat) (image : Str) (rest : List Str)
    (hc : confirmation yolo YesNo i image = none) :
    confirmedCandidates yolo YesNo i (image :: rest) = [] := by
  simp [confirmedCandidates, List.enumFrom_cons, List.takeWhile_cons, hc]

theorem confirmedCandidates_cons_false (yolo : Bool) (YesNo : Nat → Str → Option Bool)
    (i : Nat) (image : Str) (rest : List Str)
    (hc : confirmation yolo YesNo i image = some false) :
    confirmedCandidates yolo YesNo i (image :: rest)
      = confirmedCandidates yolo YesNo (i + 1) rest := by
  simp [confirmedCandidates, List.enumFrom_cons, List.takeWhile_cons, List.filter_cons, hc]

theorem confirmedCandidates_cons_true (yolo : Bool) (YesNo : Nat → Str → Option Bool)
    (i : Nat) (image : Str) (rest : List Str)
    (hc : confirmation yolo YesNo i image = some true) :
    confirmedCandidates yolo YesNo i (image :: rest)
      = (i, image) :: confirmedCandidates yolo YesNo (i + 1) rest := by
  simp [confirmedCandidates, List.enumFrom_cons, List.takeWhile_cons, List.filter_cons, hc]

theorem deleteLoop_attempts (rh : regHelper) (yolo : Bool) (YesNo : Nat → Str → Option Bool)
    (l : List Str) (i : Nat) (hs : ∀ c ∈ l, (rh.DeleteImage c).isSome = true) :
    (deleteLoop rh yolo YesNo i l).attempts =
      (confirmedCandidates yolo YesNo i l).map
        (fun c => { position := c.1, image := c.2, outcome := rh.DeleteImage c.2 }) := by
  induction l generalizing i with
  | nil => simp [deleteLoop, confirmedCandidates]
  | cons image rest ih =>
    have hrest : ∀ c ∈ rest, (rh.DeleteImage c).isSome = true :=
      fun c hc => hs c (List.mem_cons_of_mem _ hc)
    unfold deleteLoop
    cases hc : confirmation yolo YesNo i image with
    | none => simp [confirmedCandidates_cons_none _ _ _ _ _ hc]
    | some b =>
      cases b with
      | false =>
        simp only [confirmedCandidates_cons_false _ _ _ _ _ hc]
        exact ih (i + 1) hrest
      | true =>
        have hd := hs image (List.mem_cons_self _ _)
        cases hdel : rh.DeleteImage image with
        | none => rw [hdel] at hd; simp at hd
        | some out =>
          simp only [confirmedCandidates_cons_true _ _ _ _ _ hc, List.map_cons, hdel]
          rw [ih (i + 1) hrest]

theorem deleteLoop_logged (rh : regHelper) (yolo : Bool) (YesNo : Nat → Str → Option Bool)
    (l : List Str) (i : Nat) :
    (deleteLoop rh yolo YesNo i l).logged =
      (deleteLoop rh yolo YesNo i l).attempts.filterMap
        (fun a =>
          match a.outcome with
          | some out => out.err.map (fun e => (a.position, e))
          | none => none) := by
  induction l generalizing i with
  | nil => simp [deleteLoop]
  | cons image rest ih =>
    unfold deleteLoop
    cases hc : confirmation yolo YesNo i image with
    | none => simp
    | some b =>
      cases b with
      | false => exact ih (i + 1)
      | true =>
        cases hdel : rh.DeleteImage image with
        | none => simp
        | some out =>
          simp only
          cases he : out.err with
          | none => simp [List.filterMap_cons, he, ih (i + 1)]
          | some e => simp [List.filterMap_cons, he, ih (i + 1)]

theorem deleteLoop_ended (rh : regHelper) (yolo : Bool) (YesNo : Nat → Str → Option Bool)
    (l : List Str) (i : Nat) (hs : ∀ c ∈ l, (rh.DeleteImage c).isSome = true) :
    (deleteLoop rh yolo YesNo i l).ended ≠ LoopEnd.panic ∧
    ((∀ j c, (confirmation yolo YesNo j c).isSome = true) →
      (deleteLoop rh yolo YesNo i l).ended = LoopEnd.completed) := by
  induction l generalizing i with
  | nil => simp [deleteLoop]
  | cons image rest ih =>
    have hrest : ∀ c ∈ rest, (rh.DeleteImage c).isSome = true :=
      fun c hc => hs c (List.mem_cons_of_mem _ hc)
    unfold deleteLoop
    cases hc : confirmation yolo YesNo i image with
    | none =>
      refine ⟨by simp, ?_⟩
      intro hall
      have := hall i image
      rw [hc] at this
      simp at this
    | some b =>
      cases b with
      | false => exact ih (i + 1) hrest
      | true =>
        have hd := hs image (List.mem_cons_self _ _)
        cases hdel : rh.DeleteImage image with
        | none => rw [hdel] at hd; simp at hd
        | some out => exact ih (i + 1) hrest

theorem confirmedCandidates_sublist (yolo : Bool) (YesNo : Nat → Str → Option Bool)
    (i : Nat) (l : List Str) :
    (confirmedCandidates yolo YesNo i l).Sublist (l.enumFrom i) :=
  (List.filter_sublist _).trans (List.takeWhile_sublist _)

theorem confirmedCandidates_yolo (YesNo : Nat → Str → Option Bool) (i : Nat) (l : List Str) :
    confirmedCandidates true YesNo i l = l.enumFrom i := by
  induction l generalizing i with
  | nil => simp [confirmedCandidates]
  | cons image rest ih =>
    rw [confirmedCandidates_cons_true true YesNo i image rest (by simp [confirmation]), ih]
    rfl

/-- C11: in the deletion loop of `run`, on a candidate list `toDelete` that
`FilterImages` returned, whatever each `DeleteImage` call returns: the calls
made are exactly those for the confirmed candidates (every candidate when
`yolo` is set), one call each, in list order, none of them a panic; every
error returned is logged and nothing else follows from it; with `yolo` set, or
when every question is answered, the loop runs through the whole list. -/
theorem deleteLoop_attempts_confirmed (fh : filterHelper) (now : Int)
    (images toDelete : List Str) (n : Int) (yolo : Bool) (YesNo : Nat → Str → Option Bool)
    (hfilter : fh.FilterImages now images = some (toDelete, n)) :
    (deleteLoop fh.rh yolo YesNo 0 toDelete).attempts =
      (confirmedCandidates yolo YesNo 0 toDelete).map
        (fun c => { position := c.1, image := c.2, outcome := fh.rh.DeleteImage c.2 }) ∧
    (deleteLoop fh.rh yolo YesNo 0 toDelete).ended ≠ LoopEnd.panic ∧
    ((deleteLoop fh.rh yolo YesNo 0 toDelete).attempts.map (fun a => a.position)).Pairwise
      (fun i j => i < j) ∧
    (∀ a ∈ (deleteLoop fh.rh yolo YesNo 0 toDelete).attempts,
      toDelete[a.position]? = some a.image ∧ a.outcome = fh.rh.DeleteImage a.image ∧
        a.outcome.isSome = true) ∧
    (deleteLoop fh.rh yolo YesNo 0 toDelete).logged =
      (deleteLoop fh.rh yolo YesNo 0 toDelete).attempts.filterMap
        (fun a =>
          match a.outcome with
          | some out => out.err.map (fun e => (a.position, e))
          | none => none) ∧
    (yolo = true →
      (deleteLoop fh.rh yolo YesNo 0 toDelete).attempts.map (fun a => a.image) = toDelete ∧
      (deleteLoop fh.rh yolo YesNo 0 toDelete).ended = LoopEnd.completed) ∧
    ((∀ j c, (YesNo j c).isSome = true) →
      (deleteLoop fh.rh yolo YesNo 0 toDelete).ended = LoopEnd.completed) := by
  obtain ⟨hall, hres⟩ := FilterImages_eq_some fh now images (toDelete, n) hfilter
  have hs : ∀ c ∈ toDelete, (fh.rh.DeleteImage c).isSome = true := by
    intro c hc
    have hres2 : toDelete = images.filter (fun c => fh.verdict now c == some Verdict.kept) := hres
    rw [hres2] at hc
    rw [DeleteImage_isSome_iff]
    exact hall c (List.mem_filter.mp hc).1
  have hatt := deleteLoop_attempts fh.rh yolo YesNo toDelete 0 hs
  have hend := deleteLoop_ended fh.rh yolo YesNo toDelete 0 hs
  have hmem : ∀ a ∈ (deleteLoop fh.rh yolo YesNo 0 toDelete).attempts,
      (a.position, a.image) ∈ toDelete.enumFrom 0 ∧ a.outcome = fh.rh.DeleteImage a.image := by
    intro a ha
    rw [hatt, List.mem_map] at ha
    obtain ⟨c, hc, hca⟩ := ha
    rw [← hca]
    exact ⟨(confirmedCandidates_sublist yolo YesNo 0 toDelete).subset hc, rfl⟩
  refine ⟨hatt, hend.1, ?_, ?_, deleteLoop_logged fh.rh yolo YesNo toDelete 0, ?_, ?_⟩
  · rw [hatt, List.map_map]
    have hsub := (confirmedCandidates_sublist yolo YesNo 0 toDelete).map Prod.fst
    rw [List.enumFrom_map_fst] at hsub
    exact List.Pairwise.sublist hsub (List.pairwise_lt_range' 0 toDelete.length)
  · intro a ha
    obtain ⟨hin, hout⟩ := hmem a ha
    have hget := (List.mk_mem_enumFrom_iff_le_and_getElem?_sub).1 hin
    refine ⟨by simpa using hget.2, hout, ?_⟩
    rw [hout]
    have hget2 : toDelete[a.position]? = some a.image := by simpa using hget.2
    exact hs a.image (List.getElem?_mem hget2)
  · intro hy
    subst hy
    refine ⟨?_, hend.2 (fun j c => by simp [confirmation])⟩
    rw [hatt, confirmedCandidates_yolo, List.map_map]
    exact List.enumFrom_map_snd 0 toDelete
  · intro hans
    apply hend.2
    intro j c
    unfold confirmation
    split
    · rfl
    · exact hans j (deletePrompt c)

/-- C11 (witness): with `yolo` set and a registry whose `DeleteManifest` fails
for `app`, both candidates are attempted, in order: the failure for
`reg.io/app:v1` does not prevent the attempt for `reg.io/old:v0`. -/
theorem deleteLoop_attempts_confirmed_witness :
    (sampleFilter failingRegistry [] []).FilterImages 0
        ["reg.io/app:v1".toList, "reg.io/old:v0".toList]
      = some (["reg.io/app:v1".toList, "reg.io/old:v0".toList], 0) ∧
    (deleteLoop (sampleFilter failingRegistry [] []).rh true sampleAnswers 0
        ["reg.io/app:v1".toList, "reg.io/old:v0".toList]).attempts =
      [{ position := 0, image := "reg.io/app:v1".toList
         outcome := some { err := some DeleteError.deleteManifest
                           deleteCalls := [("app".toList, "sha256:abc".toList)] } },
       { position := 1, image := "reg.io/old:v0".toList
         outcome := some { err := none
                           deleteCalls := [("old".toList, "sha256:abc".toList)] } }] :=
  ⟨by decide,
   (deleteLoop_attempts_confirmed (sampleFilter failingRegistry [] []) 0
      ["reg.io/app:v1".toList, "reg.io/old:v0".toList]
      ["reg.io/app:v1".toList, "reg.io/old:v0".toList] 0 true sampleAnswers
      (by decide)).1.trans (by decide)⟩

/-! ## The counters of the retention filter -/

theorem verdict_cases (h : filterHelper) (now : Int) (c img tag : Str)
    (hs : h.rh.splitImageTag c = some (img, tag)) :
    (IncludeRuleExcludes h img ∧ h.verdict now c = some Verdict.include_name) ∨
    (¬ IncludeRuleExcludes h img ∧ ExcludeRuleExcludes h img ∧
      h.verdict now c = some Verdict.exclude_name) ∨
    (¬ IncludeRuleExcludes h img ∧ ¬ ExcludeRuleExcludes h img ∧ AgeRuleExcludes h now c ∧
      h.verdict now c = some Verdict.min_age) ∨
    (¬ IncludeRuleExcludes h img ∧ ¬ ExcludeRuleExcludes h img ∧ ¬ AgeRuleExcludes h now c ∧
      h.verdict now c = some Verdict.kept) := by
  have hi := include_cond_iff h.IncludeNameFilters img
  have he := exclude_cond_iff h.ExcludeNameFilters img
  have hd := GetImageDate_isSome_iff h.rh c
  rw [hs] at hd
  unfold filterHelper.verdict
  rw [hs]
  dsimp only
  by_cases c1 : (h.IncludeNameFilters.length > 0 &&
      (slicesFilter h.IncludeNameFilters (stringContains img)).length
        == h.IncludeNameFilters.length) = true
  · rw [if_pos c1]
    exact Or.inl ⟨hi.1 c1, rfl⟩
  · rw [if_neg c1]
    have n1 : ¬ IncludeRuleExcludes h img := fun hx => c1 (hi.2 hx)
    by_cases c2 : (h.ExcludeNameFilters.length > 0 &&
        (slicesFilter h.ExcludeNameFilters (stringContains img)).length
          != h.ExcludeNameFilters.length) = true
    · rw [if_pos c2]
      exact Or.inr (Or.inl ⟨n1, he.1 c2, rfl⟩)
    · rw [if_neg c2]
      have n2 : ¬ ExcludeRuleExcludes h img := fun hx => c2 (he.2 hx)
      cases hg : h.rh.GetImageDate c with
      | none => rw [hg] at hd; simp at hd
      | some d =>
        cases d with
        | none =>
          refine Or.inr (Or.inr (Or.inr ⟨n1, n2, ?_, rfl⟩))
          rintro ⟨created, hcr, _⟩
          rw [hg] at hcr
          cases hcr
        | some created =>
          dsimp only [After]
          by_cases c3 : h.threshold now < created
          · have hA : decide (h.threshold now < created) = true := decide_eq_true c3
            rw [if_pos hA]
            exact Or.inr (Or.inr (Or.inl ⟨n1, n2, ⟨created, hg, c3⟩, rfl⟩))
          · have hA : ¬ decide (h.threshold now < created) = true := by simpa using c3
            rw [if_neg hA]
            refine Or.inr (Or.inr (Or.inr ⟨n1, n2, ?_, rfl⟩))
            rintro ⟨t, ht, hlt⟩
            rw [hg] at ht
            simp only [Option.some.injEq] at ht
            subst ht
            exact c3 hlt

theorem verdict_some_split (h : filterHelper) (now : Int) (c : Str) (v : Verdict)
    (hv : h.verdict now c = some v) : ∃ img tag, h.rh.splitImageTag c = some (img, tag) := by
  have e := verdict_isSome_iff h now c
  rw [hv] at e
  cases hs : h.rh.splitImageTag c with
  | none => rw [hs] at e; simp at e
  | some it => exact ⟨it.1, it.2, rfl⟩

theorem verdict_include_iff (h : filterHelper) (now : Int) (c : Str) :
    h.verdict now c = some Verdict.include_name ↔
      ∃ r tag, h.rh.splitImageTag c = some (r, tag) ∧ IncludeRuleExcludes h r := by
  constructor
  · intro hv
    obtain ⟨img, tag, hs⟩ := verdict_some_split h now c _ hv
    refine ⟨img, tag, hs, ?_⟩
    rcases verdict_cases h now c img tag hs with ⟨h1, _⟩ | ⟨_, _, h2⟩ | ⟨_, _, _, h2⟩ | ⟨_, _, _, h2⟩
    · exact h1
    · rw [hv] at h2; cases h2
    · rw [hv] at h2; cases h2
    · rw [hv] at h2; cases h2
  · rintro ⟨r, tag, hs, hr⟩
    rcases verdict_cases h now c r tag hs with ⟨_, h2⟩ | ⟨n1, _⟩ | ⟨n1, _⟩ | ⟨n1, _⟩
    · exact h2
    · exact absurd hr n1
    · exact absurd hr n1
    · exact absurd hr n1

theorem verdict_exclude_iff (h : filterHelper) (now : Int) (c : Str) :
    h.verdict now c = some Verdict.exclude_name ↔
      ∃ r tag, h.rh.splitImageTag c = some (r, tag) ∧
        ¬ IncludeRuleExcludes h r ∧ ExcludeRuleExcludes h r := by
  constructor
  · intro hv
    obtain ⟨img, tag, hs⟩ := verdict_some_split h now c _ hv
    refine ⟨img, tag, hs, ?_⟩
    rcases verdict_cases h now c img tag hs with ⟨_, h2⟩ | ⟨n1, e1, _⟩ | ⟨_, _, _, h2⟩ | ⟨_, _, _, h2⟩
    · rw [hv] at h2; cases h2
    · exact ⟨n1, e1⟩
    · rw [hv] at h2; cases h2
    · rw [hv] at h2; cases h2
  · rintro ⟨r, tag, hs, hn, hr⟩
    rcases verdict_cases h now c r tag hs with ⟨h1, _⟩ | ⟨_, _, h2⟩ | ⟨_, n2, _⟩ | ⟨_, n2, _⟩
    · exact absurd h1 hn
    · exact h2
    · exact absurd hr n2
    · exact absurd hr n2

theorem verdict_min_age_iff (h : filterHelper) (now : Int) (c : Str) :
    h.verdict now c = some Verdict.min_age ↔
      ∃ r tag, h.rh.splitImageTag c = some (r, tag) ∧
        ¬ IncludeRuleExcludes h r ∧ ¬ ExcludeRuleExcludes h r ∧ AgeRuleExcludes h now c := by
  constructor
  · intro hv
    obtain ⟨img, tag, hs⟩ := verdict_some_split h now c _ hv
    refine ⟨img, tag, hs, ?_⟩
    rcases verdict_cases h now c img tag hs with ⟨_, h2⟩ | ⟨_, _, h2⟩ | ⟨n1, n2, a, _⟩ | ⟨_, _, _, h2⟩
    · rw [hv] at h2; cases h2
    · rw [hv] at h2; cases h2
    · exact ⟨n1, n2, a⟩
    · rw [hv] at h2; cases h2
  · rintro ⟨r, tag, hs, hn, hne, ha⟩
    rcases verdict_cases h now c r tag hs with ⟨h1, _⟩ | ⟨_, e1, _⟩ | ⟨_, _, _, h2⟩ | ⟨_, _, na, _⟩
    · exact absurd h1 hn
    · exact absurd e1 hne
    · exact h2
    · exact absurd ha na

theorem length_eq_verdict_counts (h : filterHelper) (now : Int) (images : List Str)
    (hall : ∀ c ∈ images, (h.verdict now c).isSome = true) :
    images.length =
      (images.filter (fun c => h.verdict now c == some Verdict.kept)).length +
        (images.countP (fun c => h.verdict now c == some Verdict.include_name) +
          images.countP (fun c => h.verdict now c == some Verdict.exclude_name) +
          images.countP (fun c => h.verdict now c == some Verdict.min_age)) := by
  induction images with
  | nil => simp
  | cons x xs ih =>
    have hx := hall x (List.mem_cons_self x xs)
    have ih2 := ih (fun c hc => hall c (List.mem_cons_of_mem x hc))
    cases hv : h.verdict now x with
    | none => rw [hv] at hx; simp at hx
    | some v =>
      cases v <;> simp [List.filter_cons, List.countP_cons, hv] <;> omega

/-- C12: `FilterImages` returns exactly when every candidate, its registry
prefix trimmed, contains a colon; and whenever its loop ends in the state `st`,
it returns `st.filtered` with the count `len(images) - len(st.filtered)`, that
count is the sum of the three counters, each counter is the number of
candidates whose first excluding rule, in the order include, exclude, minimum
age, is the rule of that counter, and the returned list is the candidates that
no rule excludes. -/
theorem FilterImages_count_by_reason (h : filterHelper) (now : Int) (images : List Str) :
    ((h.FilterImages now images).isSome = true ↔
      ∀ c ∈ images, ':' ∈ TrimPrefix c (h.rh.RegPrefix ++ ['/'])) ∧
    ∀ st, h.FilterImagesState now images = some st →
      h.FilterImages now images =
        some (st.filtered, (images.length : Int) - (st.filtered.length : Int)) ∧
      (images.length : Int) - (st.filtered.length : Int) =
        ((st.stats.include_name + st.stats.exclude_name + st.stats.min_age : Nat) : Int) ∧
      ∃ byInclude byExclude byAge : Str → Bool,
        (∀ c, byInclude c = true ↔
          ∃ r tag, h.rh.splitImageTag c = some (r, tag) ∧ IncludeRuleExcludes h r) ∧
        (∀ c, byExclude c = true ↔
          ∃ r tag, h.rh.splitImageTag c = some (r, tag) ∧
            ¬ IncludeRuleExcludes h r ∧ ExcludeRuleExcludes h r) ∧
        (∀ c, byAge c = true ↔
          ∃ r tag, h.rh.splitImageTag c = some (r, tag) ∧
            ¬ IncludeRuleExcludes h r ∧ ¬ ExcludeRuleExcludes h r ∧ AgeRuleExcludes h now c) ∧
        st.stats.include_name = images.countP byInclude ∧
        st.stats.exclude_name = images.countP byExclude ∧
        st.stats.min_age = images.countP byAge ∧
        st.filtered = images.filter (fun c => !byInclude c && !byExclude c && !byAge c) := by
  constructor
  · constructor
    · intro hsome c hc
      cases hr : h.FilterImages now images with
      | none => rw [hr] at hsome; simp at hsome
      | some result =>
        exact (splitImageTag_isSome_iff h.rh c).1
          ((FilterImages_eq_some h now images result hr).1 c hc)
    · intro hform
      rw [FilterImages_some h now images
        (fun c hc => (splitImageTag_isSome_iff h.rh c).2 (hform c hc))]
      rfl
  · intro st hst
    have hsplit : ∀ c ∈ images, (h.rh.splitImageTag c).isSome = true := by
      intro c hc
      cases hs : h.rh.splitImageTag c with
      | some it => rfl
      | none =>
        have hv : h.verdict now c = none := by
          have e := verdict_isSome_iff h now c
          rw [hs] at e
          cases hv : h.verdict now c with
          | none => rfl
          | some v => rw [hv] at e; simp at e
        unfold filterHelper.FilterImagesState at hst
        rw [filterLoop_none h now images _ c hc hv] at hst
        cases hst
    have hverd : ∀ c ∈ images, (h.verdict now c).isSome = true := by
      intro c hc
      rw [verdict_isSome_iff]
      exact hsplit c hc
    have hst2 := FilterImagesState_some h now images hsplit
    rw [hst] at hst2
    simp only [Option.some.injEq] at hst2
    have hcount := length_eq_verdict_counts h now images hverd
    refine ⟨?_, ?_, ?_⟩
    · unfold filterHelper.FilterImages
      rw [hst]
    · rw [hst2]
      simp only
      omega
    · refine ⟨fun c => h.verdict now c == some Verdict.include_name,
        fun c => h.verdict now c == some Verdict.exclude_name,
        fun c => h.verdict now c == some Verdict.min_age, ?_, ?_, ?_, ?_, ?_, ?_, ?_⟩
      · intro c
        rw [beq_iff_eq]
        exact verdict_include_iff h now c
      · intro c
        rw [beq_iff_eq]
        exact verdict_exclude_iff h now c
      · intro c
        rw [beq_iff_eq]
        exact verdict_min_age_iff h now c
      · rw [hst2]
      · rw [hst2]
      · rw [hst2]
      · rw [hst2]
        simp only
        apply List.filter_congr
        intro c hc
        have hv := hverd c hc
        cases hvc : h.verdict now c with
        | none => rw [hvc] at hv; simp at hv
        | some v => cases v <;> decide

/-- C12 (witness): of four candidates, `lib` is removed by the include list
`["app", "old"]`, `old` by the exclude list `["old"]`, `app:v1` by its age of
10 days, and `app:v0` is returned with the count 3 = 1 + 1 + 1. -/
theorem FilterImages_count_by_reason_witness :
    (sampleFilter mixedRegistry ["old".toList] ["app".toList, "old".toList]).FilterImagesState 0
        mixedCandidates
      = some { filtered := ["reg.io/app:v0".toList]
               stats := { exclude_name := 1, include_name := 1, min_age := 1 } } ∧
    (sampleFilter mixedRegistry ["old".toList] ["app".toList, "old".toList]).FilterImages 0
        mixedCandidates
      = some (["reg.io/app:v0".toList], (mixedCandidates.length : Int) - ((1 : Nat) : Int)) ∧
    (mixedCandidates.length : Int) - ((1 : Nat) : Int) = ((1 + 1 + 1 : Nat) : Int) :=
  ⟨by decide,
   ((FilterImages_count_by_reason
      (sampleFilter mixedRegistry ["old".toList] ["app".toList, "old".toList]) 0
      mixedCandidates).2
      { filtered := ["reg.io/app:v0".toList]
        stats := { exclude_name := 1, include_name := 1, min_age := 1 } } (by decide)).1,
   ((FilterImages_count_by_reason
      (sampleFilter mixedRegistry ["old".toList] ["app".toList, "old".toList]) 0
      mixedCandidates).2
      { filtered := ["reg.io/app:v0".toList]
        stats := { exclude_name := 1, include_name := 1, min_age := 1 } } (by decide)).2.1⟩

end Regclean
